import Mathlib

/-!
# Thread identifier codec (core/thread/id.go)

A shallow embedding of the identifier codec of go-threads: the functions of
`core/thread/id.go` are transcribed as Lean functions over byte lists.

* A Go `byte` is a `Fin 256`; a Go `[]byte` and a Go `string` are `List Byte`
  (a Go string is an arbitrary byte sequence, `len` counts bytes).
* A Go `uint64` is a `Nat`, reduced `% 2 ^ 64` where the Go operation can overflow.
* A Go `int` is an `Int`.
* A Go `error` result is an `Option Error` (`none` is `nil`).
* A function that can panic returns an `Option` (`none` is the panic).
-/

namespace Thread

/-- A Go byte. -/
abbrev Byte := Fin 256

/-- Errors of the package, each constructor standing for one error value or one
`fmt.Errorf` call site of id.go; `mbase` stands for the errors of the multibase package
and `maddr` for those of the multiaddr package. -/
inductive Error where
  | ErrVarintBuffSmall
  | ErrVarintTooBig
  | ErrIDTooShort
  | unexpectedVersion (vers : Nat)
  | unexpectedVariant (variant : Nat)
  | noPayload
  | mbase (code : Nat)
  | maddr (code : Nat)
  deriving DecidableEq, Repr

/-- The text of an error, as built by `fmt.Errorf` in id.go. -/
def Error.msg : Error → String
  | .ErrVarintBuffSmall => "reading varint: buffer too small"
  | .ErrVarintTooBig => "reading varint: varint bigger than 64bits and not supported"
  | .ErrIDTooShort => "id too short"
  | .unexpectedVersion vers => "expected 1 as the id version number, got: " ++ toString vers
  | .unexpectedVariant variant =>
      "expected RandomVariant or PubKeyVariant as the id variant, got: " ++ toString variant
  | .noPayload => "expected random id bytes but there are none"
  | .mbase code => "multibase: error " ++ toString code
  | .maddr code => "multiaddr: error " ++ toString code

/-- The variable `randomVariantSize = 38`. -/
def randomVariantSize : Nat := 38

/-- The constant `Version1 Version = 0x01`. -/
def Version1 : Nat := 0x01

/-- The constant `RandomVariant Variant = 0x55`. -/
def RandomVariant : Nat := 0x55

/-- The constant `PubKeyVariant Variant = 0x70`. -/
def PubKeyVariant : Nat := 0x70

/-- The type `type ID string`: an identifier is its byte sequence. -/
abbrev ID := List Byte

/-- The variable `var Undef = ID("")`. -/
def Undef : ID := []

/-- The constant `binary.MaxVarintLen64`. -/
def MaxVarintLen64 : Nat := 10

/-! ## encoding/binary: Uvarint and PutUvarint -/

/-- The loop of `binary.Uvarint`: `i` is the index of the byte at the head of the list,
`x` the value accumulated so far (a uint64), `s` the current shift.
```go
for i, b := range buf {
  if i == MaxVarintLen64 { return 0, -(i + 1) }
  if b < 0x80 {
    if i == MaxVarintLen64-1 && b > 1 { return 0, -(i + 1) }
    return x | uint64(b)<<s, i + 1
  }
  x |= uint64(b&0x7f) << s
  s += 7
}
return 0, 0
``` -/
def uvarintLoop : List Byte → Nat → Nat → Nat → Nat × Int
  | [], _, _, _ => (0, 0)
  | b :: rest, i, x, s =>
    if i = MaxVarintLen64 then (0, -((i : Int) + 1))
    else if b.val < 0x80 then
      if i = MaxVarintLen64 - 1 ∧ b.val > 1 then (0, -((i : Int) + 1))
      else (x ||| (b.val <<< s) % 2 ^ 64, (i : Int) + 1)
    else uvarintLoop rest (i + 1) (x ||| ((b.val &&& 0x7f) <<< s) % 2 ^ 64) (s + 7)

/-- The function `binary.Uvarint(buf)`: the decoded value and the number of bytes read
(`0`: buffer too small, negative: overflow). Releases of the library that lack the
check `i == MaxVarintLen64` differ from this one only in the failure they report for
a buffer with more than ten continuation bytes. -/
def Uvarint (buf : List Byte) : Nat × Int :=
  uvarintLoop buf 0 0 0

/-- Writing `buf[i] = v`; `none` is the index-out-of-range panic. -/
def setByte (buf : List Byte) (i : Nat) (v : Byte) : Option (List Byte) :=
  if i < buf.length then some (buf.set i v) else none

/-- The loop of `binary.PutUvarint`:
```go
i := 0
for x >= 0x80 {
  buf[i] = byte(x) | 0x80
  x >>= 7
  i++
}
buf[i] = byte(x)
return i + 1
``` -/
def putUvarintLoop (buf : List Byte) (x : Nat) (i : Nat) : Option (List Byte × Nat) :=
  if _h : x ≥ 0x80 then
    match setByte buf i (Fin.ofNat ((x % 256) ||| 0x80)) with
    | none => none
    | some buf1 => putUvarintLoop buf1 (x >>> 7) (i + 1)
  else
    match setByte buf i (Fin.ofNat (x % 256)) with
    | none => none
    | some buf1 => some (buf1, i + 1)
termination_by x
decreasing_by
  simp only [Nat.shiftRight_eq_div_pow]
  omega

/-- The function `binary.PutUvarint(buf, x)`: the buffer after the write and the number of bytes
written; `none` when the buffer is too small (panic). -/
def PutUvarint (buf : List Byte) (x : Nat) : Option (List Byte × Nat) :=
  putUvarintLoop buf x 0

/-- The builtin `copy(dst, src)`: the destination after the copy and the number of
bytes copied, `min(len(dst), len(src))`. -/
def copy (dst src : List Byte) : List Byte × Nat :=
  (src.take dst.length ++ dst.drop src.length, min dst.length src.length)

/-! ## id.go -/

/-- The function `newID`; `none` is a panic.
```go
l := len(payload)
buf := make([]byte, 2*binary.MaxVarintLen64+l)
n := binary.PutUvarint(buf, uint64(version))
n += binary.PutUvarint(buf[n:], uint64(variant))
c := copy(buf[n:], payload)
if c != l { panic(errors.New("copy length is inconsistent")) }
return ID(buf[:n+l])
``` -/
def newID (version variant : Nat) (payload : List Byte) : Option ID :=
  let l := payload.length
  let buf : List Byte := List.replicate (2 * MaxVarintLen64 + l) 0
  match PutUvarint buf (version % 2 ^ 64) with
  | none => none
  | some (buf1, n) =>
    if n > buf1.length then none else
    match PutUvarint (buf1.drop n) (variant % 2 ^ 64) with
    | none => none
    | some (tail2, m) =>
      let buf2 := buf1.take n ++ tail2
      let n2 := n + m
      if n2 > buf2.length then none else
      let (tail3, c) := copy (buf2.drop n2) payload
      let buf3 := buf2.take n2 ++ tail3
      if c ≠ l then none
      else if n2 + l > buf3.length then none
      else some (buf3.take (n2 + l))

/-- The function `NewRandomIDV1`, as a function of the outcome of `rand.Read(p)` on the buffer
`p := make([]byte, randomVariantSize)`: `none` when the read fails (panic), `some r`
when it fills the buffer with the bytes `r 0`, ..., `r 37`. -/
def NewRandomIDV1 (rnd : Option (Nat → Byte)) : Option ID :=
  match rnd with
  | none => none
  | some r =>
    let p := (List.range randomVariantSize).map r
    newID Version1 RandomVariant p

/-- The function `NewPubKeyIDV1(k)`, as a function of the result of `k.Hash()`: an error panics. -/
def NewPubKeyIDV1 (hash : Except Error (List Byte)) : Option ID :=
  match hash with
  | .error _ => none
  | .ok p => newID Version1 PubKeyVariant p

/-- The method `ID.Defined`: `i != Undef`. -/
def ID.Defined (i : ID) : Bool :=
  i != Undef

/-- The method `ID.Bytes`: `[]byte(i)`. -/
def ID.Bytes (i : ID) : List Byte := i

/-- The function `uvError`. -/
def uvError (read : Int) : Option Error :=
  if read = 0 then some Error.ErrVarintBuffSmall
  else if read < 0 then some Error.ErrVarintTooBig
  else none

/-- The function `getVersion`. -/
def getVersion (data : List Byte) : Nat × Int × Option Error :=
  let (vers, n) := Uvarint data
  match uvError n with
  | some err => (0, 0, some err)
  | none => (vers, n, none)

/-- The function `validateIDData`. -/
def validateIDData (data : List Byte) : Option Error :=
  match getVersion data with
  | (_, _, some err) => some err
  | (vers, n, none) =>
    if vers ≠ Version1 then some (Error.unexpectedVersion vers)
    else
      let (variant, cn) := Uvarint (data.drop n.toNat)
      match uvError cn with
      | some err => some err
      | none =>
        if variant ≠ RandomVariant ∧ variant ≠ PubKeyVariant then
          some (Error.unexpectedVariant variant)
        else
          let id := data.drop (n + cn).toNat
          if id.length = 0 then some Error.noPayload
          else none

/-- The method `ID.Validate`. -/
def ID.Validate (i : ID) : Option Error :=
  validateIDData (ID.Bytes i)

/-- The function `Cast`: the identifier and the error. -/
def Cast (data : List Byte) : ID × Option Error :=
  match validateIDData data with
  | some err => (Undef, some err)
  | none => (data, none)

/-- The method `ID.MustValidate`: `none` is the panic, `some ()` a normal return. -/
def ID.MustValidate (i : ID) : Option Unit :=
  match ID.Validate i with
  | some _ => none
  | none => some ()

/-- The method `ID.Version`: `none` is the panic. -/
def ID.Version (i : ID) : Option Nat :=
  match getVersion (ID.Bytes i) with
  | (_, _, some _) => none
  | (version, _, none) => some version

/-- The method `ID.Equals`: `i == o`. -/
def ID.Equals (i o : ID) : Bool :=
  i == o

/-- Modelled from the spec: the package helper `uvarint(buf string) (uint64, int)`
(varint.go) is not among the sources. The spec says that variable-length integers
"follow the standard unsigned-varint convention (7 data bits per byte, continuation
bit)", with "buffer too small" and "exceeds 64 bits" as distinct failures, so the
helper is taken to read a string the way `binary.Uvarint` reads a byte slice. -/
def uvarint (buf : List Byte) : Nat × Int :=
  uvarintLoop buf 0 0 0

/-- The method `ID.Variant`; `none` is the panic of the slice expression `string(i)[n:]` when
`n` is out of range.
```go
_, n := uvarint(string(i))
variant, _ := uvarint(string(i)[n:])
return Variant(variant)
``` -/
def ID.Variant (i : ID) : Option Nat :=
  let (_, n) := uvarint i
  if n < 0 ∨ n > (i.length : Int) then none
  else
    let (variant, _) := uvarint (i.drop n.toNat)
    some variant

/-- Comparison `a < b` of two Go strings: byte-wise, a proper prefix is smaller. -/
def stringLess : List Byte → List Byte → Bool
  | _, [] => false
  | [], _ :: _ => true
  | a :: as, b :: bs =>
    if a.val < b.val then true
    else if b.val < a.val then false
    else stringLess as bs

/-- The type `type IDSlice []ID`. -/
abbrev IDSlice := List ID

/-- The method `IDSlice.Less`: `s[i] < s[j]`; `none` is the index-out-of-range panic. -/
def IDSlice.Less (s : IDSlice) (i j : Nat) : Option Bool :=
  match s.get? i, s.get? j with
  | some a, some b => some (stringLess a b)
  | _, _ => none

/-! ## The multibase package (github.com/multiformats/go-multibase)

`Decode` and `ID.String` call into the multibase package, which is a dependency of
the repository. Its Base32 codec (tag `b`, RFC 4648 alphabet in lower case, no
padding, case-insensitive decoding) is written out below after the `base32`
package it uses; the codecs of the other bases are left as a parameter. -/

/-- The encoding `mbase.Base32 = 'b'`. -/
def Base32 : Nat := 0x62

/-- The encoding `mbase.Base32Upper = 'B'`. -/
def Base32Upper : Nat := 0x42

/-- The multibase failures: an empty string handed to `mbase.Decode`. -/
def errZeroLength : Error := Error.mbase 0

/-- The multibase failures: `base32.CorruptInputError`. -/
def errCorruptInput : Error := Error.mbase 1

/-- The codecs of the multibase package for the bases other than Base32 and
Base32Upper, which this development does not write out: `encode base data` is
`mbase.Encode(base, data)`, `decode tag rest` is what `mbase.Decode` returns for
a string with first byte `tag` and remainder `rest`, and `known base` tells whether
`base` is a key of the table `mbase.EncodingToStr`. -/
structure OtherBases where
  encode : Nat → List Byte → Except Error (List Byte)
  decode : Byte → List Byte → Except Error (List Byte)
  known : Nat → Bool

/-- The alphabet `"abcdefghijklmnopqrstuvwxyz234567"` of `base32StdLowerNoPad`. -/
def encodeStdLower : List Byte :=
  [97, 98, 99, 100, 101, 102, 103, 104, 105, 106, 107, 108, 109, 110, 111, 112,
   113, 114, 115, 116, 117, 118, 119, 120, 121, 122, 50, 51, 52, 53, 54, 55]

/-- The lookup `enc.encode[b&31]` of a 5-bit block in the alphabet. -/
def encodeChar (b : Nat) : Byte :=
  encodeStdLower.getD (b &&& 31) 0

/-- The table `enc.decodeMap` of the case-insensitive encoding: the position of a
letter (either case) or digit in the alphabet, `0xFF` for every other byte. -/
def decodeMap (c : Byte) : Nat :=
  if 97 ≤ c.val ∧ c.val ≤ 122 then c.val - 97
  else if 65 ≤ c.val ∧ c.val ≤ 90 then c.val - 65
  else if 50 ≤ c.val ∧ c.val ≤ 55 then c.val - 50 + 26
  else 0xFF

/-- The unpacking step of `base32.Encode` on one quantum: the eight 5-bit blocks of
five source bytes (uint8 arithmetic; a byte missing from a short final quantum
contributes nothing, as a zero byte does).
```go
b[7] = src[4] & 0x1F
b[6] = src[4] >> 5
b[6] |= (src[3] << 3) & 0x1F
b[5] = (src[3] >> 2) & 0x1F
b[4] = src[3] >> 7
b[4] |= (src[2] << 1) & 0x1F
b[3] = (src[2] >> 4) & 0x1F
b[3] |= (src[1] << 4) & 0x1F
b[2] = (src[1] >> 1) & 0x1F
b[1] = (src[1] >> 6) & 0x1F
b[1] |= (src[0] << 2) & 0x1F
b[0] = src[0] >> 3
``` -/
def unpack (s0 s1 s2 s3 s4 : Byte) : List Nat :=
  [ s0.val >>> 3,
    ((s1.val >>> 6) &&& 0x1F) ||| (((s0.val <<< 2) % 256) &&& 0x1F),
    (s1.val >>> 1) &&& 0x1F,
    ((s2.val >>> 4) &&& 0x1F) ||| (((s1.val <<< 4) % 256) &&& 0x1F),
    (s3.val >>> 7) ||| (((s2.val <<< 1) % 256) &&& 0x1F),
    (s3.val >>> 2) &&& 0x1F,
    (s4.val >>> 5) ||| (((s3.val <<< 3) % 256) &&& 0x1F),
    s4.val &&& 0x1F ]

/-- The method `base32StdLowerNoPad.EncodeToString`: five bytes give eight characters; a final
quantum of 1, 2, 3, 4 bytes gives 2, 4, 5, 7 characters and no padding. -/
def base32Encode : List Byte → List Byte
  | s0 :: s1 :: s2 :: s3 :: s4 :: rest =>
    (unpack s0 s1 s2 s3 s4).map encodeChar ++ base32Encode rest
  | [s0, s1, s2, s3] => ((unpack s0 s1 s2 s3 0).map encodeChar).take 7
  | [s0, s1, s2] => ((unpack s0 s1 s2 0 0).map encodeChar).take 5
  | [s0, s1] => ((unpack s0 s1 0 0 0).map encodeChar).take 4
  | [s0] => ((unpack s0 0 0 0 0).map encodeChar).take 2
  | [] => []

/-- The packing step of `base32.decode` on one quantum of `dlen` decoded characters
`dbuf` (uint8 arithmetic): 8, 7, 5, 4, 2 characters give 5, 4, 3, 2, 1 bytes, any
other count gives none.
```go
switch dlen {
case 8: dst[4] = dbuf[6]<<5 | dbuf[7]; fallthrough
case 7: dst[3] = dbuf[4]<<7 | dbuf[5]<<2 | dbuf[6]>>3; fallthrough
case 5: dst[2] = dbuf[3]<<4 | dbuf[4]>>1; fallthrough
case 4: dst[1] = dbuf[1]<<6 | dbuf[2]<<1 | dbuf[3]>>4; fallthrough
case 2: dst[0] = dbuf[0]<<3 | dbuf[1]>>2
}
``` -/
def pack (dbuf : List Nat) (dlen : Nat) : List Byte :=
  let d (j : Nat) : Nat := dbuf.getD j 0
  let dst : List Byte :=
    [ Fin.ofNat (((d 0 <<< 3) % 256) ||| (d 1 >>> 2)),
      Fin.ofNat (((d 1 <<< 6) % 256) ||| ((d 2 <<< 1) % 256) ||| (d 3 >>> 4)),
      Fin.ofNat (((d 3 <<< 4) % 256) ||| (d 4 >>> 1)),
      Fin.ofNat (((d 4 <<< 7) % 256) ||| ((d 5 <<< 2) % 256) ||| (d 6 >>> 3)),
      Fin.ofNat (((d 6 <<< 5) % 256) ||| d 7) ]
  let n : Nat :=
    if dlen = 8 then 5 else if dlen = 7 then 4 else if dlen = 5 then 3
    else if dlen = 4 then 2 else if dlen = 2 then 1 else 0
  dst.take n

/-- The loop of `base32.decode` without padding: the input is read in quanta of eight
characters, a character outside the alphabet is a `CorruptInputError`, and the
characters left at the end of the input form the last, short quantum. -/
def base32DecodeLoop : List Byte → Except Error (List Byte)
  | c0 :: c1 :: c2 :: c3 :: c4 :: c5 :: c6 :: c7 :: rest =>
    let dbuf := [c0, c1, c2, c3, c4, c5, c6, c7].map decodeMap
    if dbuf.any (fun v => v == 0xFF) then .error errCorruptInput
    else
      match base32DecodeLoop rest with
      | .error e => .error e
      | .ok out => .ok (pack dbuf 8 ++ out)
  | src =>
    let dbuf := src.map decodeMap
    if dbuf.any (fun v => v == 0xFF) then .error errCorruptInput
    else .ok (pack dbuf src.length)

/-- The method `base32StdLowerNoPad.DecodeString`: carriage returns and line feeds are removed
from the input, the rest is decoded. -/
def base32DecodeString (s : List Byte) : Except Error (List Byte) :=
  base32DecodeLoop (s.filter (fun c => c.val != 13 && c.val != 10))

/-- The function `mbase.Encode(base, data)`: the tag byte of the base, then the encoded data. -/
def mbaseEncode (mb : OtherBases) (base : Nat) (data : List Byte) :
    Except Error (List Byte) :=
  if base = Base32 then .ok (Fin.ofNat Base32 :: base32Encode data)
  else mb.encode base data

/-- The function `mbase.Decode(data)`: the encoding named by the first byte, the decoded bytes
and the error. The tags `b` and `B` are both decoded by `base32StdLowerNoPad`. -/
def mbaseDecode (mb : OtherBases) (data : List Byte) : Nat × List Byte × Option Error :=
  match data with
  | [] => (0, [], some errZeroLength)
  | enc :: rest =>
    if enc.val = Base32 ∨ enc.val = Base32Upper then
      match base32DecodeString rest with
      | .ok bytes => (enc.val, bytes, none)
      | .error e => (enc.val, [], some e)
    else
      match mb.decode enc rest with
      | .ok bytes => (enc.val, bytes, none)
      | .error e => (enc.val, [], some e)

/-! ## id.go: text form -/

/-- The function `Decode`.
```go
if len(v) < 2 { return Undef, ErrIDTooShort }
_, data, err := mbase.Decode(v)
if err != nil { return Undef, err }
return Cast(data)
``` -/
def Decode (mb : OtherBases) (v : List Byte) : ID × Option Error :=
  if v.length < 2 then (Undef, some Error.ErrIDTooShort)
  else
    match mbaseDecode mb v with
    | (_, _, some err) => (Undef, some err)
    | (_, data, none) => Cast data

/-- The method `ID.String`; `none` is a panic.
```go
i.MustValidate()
switch i.Version() {
case Version1:
  b := []byte(i)
  mbstr, err := mbase.Encode(mbase.Base32, b)
  if err != nil { panic(...) }
  return mbstr
default:
  panic(errors.New("unknown thread id version"))
}
``` -/
def ID.String (mb : OtherBases) (i : ID) : Option (List Byte) :=
  match ID.MustValidate i with
  | none => none
  | some () =>
    match ID.Version i with
    | none => none
    | some version =>
      if version = Version1 then
        match mbaseEncode mb Base32 i with
        | .error _ => none
        | .ok mbstr => some mbstr
      else none

/-- The multibase failure on a byte that names no encoding, `ErrUnsupportedEncoding`. -/
def errUnsupportedEncoding : Error := Error.mbase 2

/-- The function `mbase.NewEncoder(base)`, reduced to its error: nil exactly when
`base` is a key of the table `EncodingToStr`, which holds Base32 and Base32Upper. -/
def mbaseNewEncoder (mb : OtherBases) (base : Nat) : Option Error :=
  if base = Base32 ∨ base = Base32Upper then none
  else if mb.known base then none
  else some errUnsupportedEncoding

/-- The function `ExtractEncoding`: the encoding (an int, `-1` on failure) and the
error.
```go
if len(v) < 2 { return -1, ErrIDTooShort }
encoding := mbase.Encoding(v[0])
_, err := mbase.NewEncoder(encoding)
if err != nil { return -1, err }
return encoding, nil
``` -/
def ExtractEncoding (mb : OtherBases) (v : List Byte) : Int × Option Error :=
  if v.length < 2 then (-1, some Error.ErrIDTooShort)
  else
    let encoding : Nat := (v.headD 0).val
    match mbaseNewEncoder mb encoding with
    | some err => (-1, some err)
    | none => ((encoding : Int), none)

/-- The method `ID.StringOfBase`: the string and the error of `mbase.Encode`; `none`
is a panic.
```go
i.MustValidate()
switch i.Version() {
case Version1:
  return mbase.Encode(base, i.Bytes())
default:
  panic(errors.New("unknown thread id version"))
}
``` -/
def ID.StringOfBase (mb : OtherBases) (i : ID) (base : Nat) :
    Option (List Byte × Option Error) :=
  match ID.MustValidate i with
  | none => none
  | some () =>
    match ID.Version i with
    | none => none
    | some version =>
      if version = Version1 then
        match mbaseEncode mb base (ID.Bytes i) with
        | .error e => some ([], some e)
        | .ok mbstr => some (mbstr, none)
      else none

/-- The bytes of a string literal of the source whose characters are ASCII. -/
def goString (s : String) : List Byte :=
  s.toList.map (fun c => Fin.ofNat c.toNat)

/-- The text `"did:thread:"`. -/
def didPrefix : List Byte :=
  [100, 105, 100, 58, 116, 104, 114, 101, 97, 100, 58]

/-- The method `ID.DID`: `"did:thread:" + i.String()`; `none` is the panic of
`String`. -/
def ID.DID (mb : OtherBases) (i : ID) : Option (List Byte) :=
  match ID.String mb i with
  | none => none
  | some str => some (didPrefix ++ str)

/-- The method `ID.MarshalText`; `none` is a panic.
```go
i.MustValidate()
return []byte(i.String()), nil
``` -/
def ID.MarshalText (mb : OtherBases) (i : ID) : Option (List Byte × Option Error) :=
  match ID.MustValidate i with
  | none => none
  | some () =>
    match ID.String mb i with
    | none => none
    | some str => some (str, none)

/-- The method `(*ID).UnmarshalBinary`: the value of the receiver after the call and
the error.
```go
id, err := Cast(data)
if err != nil { return err }
*i = id
return nil
``` -/
def ID.UnmarshalBinary (i : ID) (data : List Byte) : ID × Option Error :=
  match Cast data with
  | (_, some err) => (i, some err)
  | (id, none) => (id, none)

/-- The method `(*ID).UnmarshalText`: the value of the receiver after the call and
the error.
```go
id, err := Decode(string(text))
if err != nil { return err }
*i = id
return nil
``` -/
def ID.UnmarshalText (mb : OtherBases) (i : ID) (text : List Byte) : ID × Option Error :=
  match Decode mb text with
  | (_, some err) => (i, some err)
  | (id, none) => (id, none)

/-- A multibase parameter used at concrete inputs: every base other than Base32 is
unsupported. -/
def noOtherBases : OtherBases :=
  ⟨fun _ _ => .error (Error.mbase 2), fun _ _ => .error (Error.mbase 2), fun _ => false⟩

/-! ## The multiaddr package and the thread protocol

`ToAddr` and `FromAddr` call into the multiaddr package (a dependency of the
repository), in which the package registers the thread protocol. The parsing of an
address text by `NewMultiaddr` is written out below; a parsed address is kept as its
list of components, and the protocols other than the thread protocol are a
parameter. -/

/-- Modelled from the spec: the constant `ProtocolName` is declared in a file of the
package that is not among the sources; the spec speaks of "a reserved protocol name",
and the name of the upstream package, "thread", is used. -/
def ProtocolName : List Byte := [116, 104, 114, 101, 97, 100]

/-- Modelled from the spec: the constant `ProtocolCode` is declared in a file of the
package that is not among the sources; the spec speaks of a reserved "protocol
name/code", and the code of the upstream package is used. -/
def ProtocolCode : Nat := 406

/-- The multiaddr failures: the text does not begin with a slash. -/
def errMustBeginWithSlash : Error := Error.maddr 0

/-- The multiaddr failures: the text has no component. -/
def errEmptyMultiaddr : Error := Error.maddr 1

/-- The multiaddr failures: no protocol has the name of a component. -/
def errUnknownProtocol : Error := Error.maddr 2

/-- The multiaddr failures: the text ends where the value of a protocol is due. -/
def errUnexpectedEnd : Error := Error.maddr 3

/-- The multiaddr failures: `ErrProtocolNotFound`. -/
def ErrProtocolNotFound : Error := Error.maddr 4

/-- A protocol of the multiaddr package (`maddr.Protocol`), as far as the parsing of
an address uses it: `Size` is 0 for a protocol without value, and the transcoder
turns the text of a value into its bytes and back. -/
structure Protocol where
  Name : List Byte
  Code : Nat
  Size : Int
  Path : Bool
  StringToBytes : List Byte → Except Error (List Byte)
  BytesToString : List Byte → Except Error (List Byte)

/-- A component of an address: its protocol and the bytes of its value. -/
abbrev Component := Protocol × List Byte

/-- An address (`maddr.Multiaddr`): the list of its components. -/
abbrev Multiaddr := List Component

/-- Modelled from the spec: the registration of the thread protocol with the multiaddr
package is not among the sources. The spec has an identifier wrapped "inside a
network multi-address component under a reserved protocol name", and `FromAddr`
reads the text of that component with `Decode`; so the protocol is taken to carry a
value of variable size (not a path) whose text is the text form of the identifier,
read with `Decode` and written with `String`. -/
def threadProtocol (mb : OtherBases) : Protocol :=
  ⟨ProtocolName, ProtocolCode, -1, false,
    fun s =>
      match Decode mb s with
      | (_, some err) => .error err
      | (id, none) => .ok (ID.Bytes id),
    fun b =>
      match Cast b with
      | (_, some err) => .error err
      | (id, none) =>
        match ID.String mb id with
        | none => .error errUnsupportedEncoding
        | some str => .ok str⟩

/-- The function `maddr.ProtocolWithName(name)`: the thread protocol under its name,
and the protocol that the parameter `others` gives for every other name (`none` when
no protocol has the name). -/
def ProtocolWithName (mb : OtherBases) (others : List Byte → Option Protocol)
    (name : List Byte) : Option Protocol :=
  if name = ProtocolName then some (threadProtocol mb) else others name

/-- The call `strings.TrimRight(s, "/")`: the text without its trailing slashes. -/
def trimRightSlash : List Byte → List Byte
  | [] => []
  | c :: rest =>
    match trimRightSlash rest with
    | [] => if c.val = 0x2f then [] else [c]
    | t :: ts => c :: t :: ts

/-- The call `strings.Split(s, "/")`: the pieces of the text between slashes. -/
def splitSlash : List Byte → List (List Byte)
  | [] => [[]]
  | c :: rest =>
    if c.val = 0x2f then [] :: splitSlash rest
    else
      match splitSlash rest with
      | [] => [[c]]
      | piece :: pieces => (c :: piece) :: pieces

/-- The call `strings.Join(sp, "/")`. -/
def joinSlash : List (List Byte) → List Byte
  | [] => []
  | [piece] => piece
  | piece :: pieces => piece ++ 0x2f :: joinSlash pieces

/-- The loop of the multiaddr function `stringToBytes` over the pieces `sp` of the
text: a protocol name, then the value of the protocol if it has one (all the
remaining pieces for a path protocol), read by the transcoder of the protocol.
```go
for len(sp) > 0 {
  name := sp[0]
  p := ProtocolWithName(name)
  if p.Code == 0 { return nil, fmt.Errorf("... unknown protocol %s", ...) }
  _, _ = b.Write(p.VCode)
  sp = sp[1:]
  if p.Size == 0 { continue }
  if len(sp) < 1 { return nil, fmt.Errorf("... unexpected end of multiaddr", ...) }
  if p.Path { sp = []string{"/" + strings.Join(sp, "/")} }
  a, err := p.Transcoder.StringToBytes(sp[0])
  if err != nil { return nil, fmt.Errorf("... invalid value ...", ...) }
  ...
  b.Write(a)
  sp = sp[1:]
}
``` -/
def parseComponents (lookup : List Byte → Option Protocol) :
    List (List Byte) → Except Error Multiaddr
  | [] => .ok []
  | [name] =>
    match lookup name with
    | none => .error errUnknownProtocol
    | some p => if p.Size = 0 then .ok [(p, [])] else .error errUnexpectedEnd
  | name :: value :: sp =>
    match lookup name with
    | none => .error errUnknownProtocol
    | some p =>
      if p.Size = 0 then
        match parseComponents lookup (value :: sp) with
        | .error e => .error e
        | .ok m => .ok ((p, []) :: m)
      else if p.Path then
        match p.StringToBytes (0x2f :: joinSlash (value :: sp)) with
        | .error e => .error e
        | .ok a => .ok [(p, a)]
      else
        match p.StringToBytes value with
        | .error e => .error e
        | .ok a =>
          match parseComponents lookup sp with
          | .error e => .error e
          | .ok m => .ok ((p, a) :: m)

/-- The function `maddr.NewMultiaddr(s)`: the trailing slashes are dropped, the text is
split at the slashes, it must begin with a slash and have a component, and the
components are parsed. -/
def NewMultiaddr (mb : OtherBases) (others : List Byte → Option Protocol)
    (s : List Byte) : Except Error Multiaddr :=
  match splitSlash (trimRightSlash s) with
  | [] => .error errEmptyMultiaddr
  | first :: sp =>
    if first ≠ [] then .error errMustBeginWithSlash
    else if sp = [] then .error errEmptyMultiaddr
    else parseComponents (ProtocolWithName mb others) sp

/-- The method `Multiaddr.ValueForProtocol(code)`: the text of the value of the first
component with that protocol code, written by the transcoder of the protocol, or
`ErrProtocolNotFound`. A failure of the transcoder, which the package rules out for
a parsed address, is returned as the error. -/
def ValueForProtocol : Multiaddr → Nat → List Byte × Option Error
  | [], _ => ([], some ErrProtocolNotFound)
  | (p, bytes) :: m, code =>
    if p.Code = code then
      match p.BytesToString bytes with
      | .error e => ([], some e)
      | .ok value => (value, none)
    else ValueForProtocol m code

/-- The function `FromAddr`.
```go
idstr, err := addr.ValueForProtocol(ProtocolCode)
if err != nil { return Undef, err }
return Decode(idstr)
``` -/
def FromAddr (mb : OtherBases) (addr : Multiaddr) : ID × Option Error :=
  match ValueForProtocol addr ProtocolCode with
  | (_, some err) => (Undef, some err)
  | (idstr, none) => Decode mb idstr

/-- The function `ToAddr`; `none` is the panic.
```go
addr, err := maddr.NewMultiaddr("/" + ProtocolName + "/ " + string(id))
if err != nil { panic(err) }
return addr
``` -/
def ToAddr (mb : OtherBases) (others : List Byte → Option Protocol) (id : ID) :
    Option Multiaddr :=
  match NewMultiaddr mb others ([0x2f] ++ ProtocolName ++ [0x2f, 0x20] ++ id) with
  | .error _ => none
  | .ok addr => some addr

/-- The address text that `FromAddr` can read back: the protocol name followed by the
text form of the identifier, `"/" + ProtocolName + "/" + id.String()`. -/
def addrText (mb : OtherBases) (id : ID) : Option (List Byte) :=
  match ID.String mb id with
  | none => none
  | some str => some ([0x2f] ++ ProtocolName ++ [0x2f] ++ str)

/-- A protocol table used at concrete inputs: the thread protocol is the only one. -/
def noOtherProtocols : List Byte → Option Protocol := fun _ => none

/-! ## The database manager (db/manager.go)

The manager is not among the sources: only its tests are. It is modelled from the
spec as a state machine over the in-memory registry and the durable Store; the Store
and the Network are taken not to fail. -/

/-- Modelled from the spec: the errors the Manager reports, "duplicate identifier on
create, invalid name on create" and the lookup error "identifier not found", which the
tests name `lstore.ErrThreadNotFound`. -/
inductive ManagerError where
  | ErrThreadNotFound
  | duplicateID
  | invalidName
  deriving DecidableEq, Repr

/-- Modelled from the spec: a Database is a "name (optional, human-readable,
validated)", the "Identifier it is bound to" and a "mapping from collection name to
Collection", kept here as the list of the collection names. -/
structure Database where
  id : ID
  name : String
  collections : List String
  deriving DecidableEq, Repr

/-- Modelled from the spec: the Manager owns the "mapping from Identifier to open
Database handle" (the registry), and works against the Store, the "durable source of
truth" that "outlives any in-process Manager instance". -/
structure Manager where
  registry : List (ID × Database)
  store : List (ID × Database)

/-- Modelled from the spec: the lookup of an identifier in the registry or in the
Store. -/
def findDB (id : ID) : List (ID × Database) → Option Database
  | [] => none
  | (k, d) :: rest => if k = id then some d else findDB id rest

/-- Modelled from the spec: the removal of an identifier from the registry, or the
erasure of "its persisted state" from the Store. -/
def removeDB (id : ID) : List (ID × Database) → List (ID × Database)
  | [] => []
  | (k, d) :: rest => if k = id then removeDB id rest else (k, d) :: removeDB id rest

/-- Modelled from the spec: a "whitespace" character of a name, in the widest standard
sense: a character with the Unicode property White_Space, the set that Go's
`unicode.IsSpace` tests. These are tab, line feed, vertical tab, form feed, carriage
return and space, U+0085, U+00A0, U+1680, U+2000 to U+200A, U+2028, U+2029, U+202F,
U+205F and U+3000. -/
def isSpace (c : Char) : Bool :=
  (0x09 ≤ c.toNat && c.toNat ≤ 0x0D) || c.toNat == 0x20 || c.toNat == 0x85 ||
  c.toNat == 0xA0 || c.toNat == 0x1680 || (0x2000 ≤ c.toNat && c.toNat ≤ 0x200A) ||
  c.toNat == 0x2028 || c.toNat == 0x2029 || c.toNat == 0x202F || c.toNat == 0x205F ||
  c.toNat == 0x3000

/-- Modelled from the spec: the "name validation rule for Databases: any name
containing whitespace is rejected". -/
def validName (name : String) : Bool :=
  !(name.toList.any isSpace)

/-- Modelled from the spec: the construction of a Manager over a Store; no Database
is open until `GetDB` hydrates it. -/
def NewManager (store : List (ID × Database)) : Manager :=
  ⟨[], store⟩

/-- Modelled from the spec: `NewDB(ctx, id, options...)` "fails if `id` already has an
open or persisted Database (duplicate-identifier error), or if an optional
human-readable name is supplied that fails name validation"; "on success: registers
the Database in-memory, persists its existence" and "returns the live Database
handle". The result is the Manager after the call and the Database or the error. -/
def NewDB (m : Manager) (id : ID) (name : Option String) :
    Manager × Except ManagerError Database :=
  match findDB id m.registry, findDB id m.store with
  | none, none =>
    match name with
    | some n =>
      if validName n then
        (⟨(id, ⟨id, n, []⟩) :: m.registry, (id, ⟨id, n, []⟩) :: m.store⟩, .ok ⟨id, n, []⟩)
      else (m, .error ManagerError.invalidName)
    | none =>
      (⟨(id, ⟨id, "", []⟩) :: m.registry, (id, ⟨id, "", []⟩) :: m.store⟩, .ok ⟨id, "", []⟩)
  | _, _ => (m, .error ManagerError.duplicateID)

/-- Modelled from the spec: `GetDB(ctx, id)` "returns the already-open Database if
present in the registry; otherwise attempts to hydrate one from persisted Store
state"; it "fails with a not-found error if no persisted state exists for `id`". -/
def GetDB (m : Manager) (id : ID) : Manager × Except ManagerError Database :=
  match findDB id m.registry with
  | some d => (m, .ok d)
  | none =>
    match findDB id m.store with
    | some d => (⟨(id, d) :: m.registry, m.store⟩, .ok d)
    | none => (m, .error ManagerError.ErrThreadNotFound)

/-- Modelled from the spec: `DeleteDB(ctx, id)` "removes the Database from the
in-memory registry" and "erases its persisted state"; "deletion of a non-existent
identifier fails with not-found". -/
def DeleteDB (m : Manager) (id : ID) : Manager × Option ManagerError :=
  match findDB id m.registry, findDB id m.store with
  | none, none => (m, some ManagerError.ErrThreadNotFound)
  | _, _ => (⟨removeDB id m.registry, removeDB id m.store⟩, none)

/-- Modelled from the spec: `Close()` stops the open Databases and "does not delete
any persisted data". -/
def Manager.Close (m : Manager) : Manager :=
  ⟨[], m.store⟩

/-! ## The unsigned-varint convention, stated independently of the code -/

/-- The value of a sequence of 7-bit groups, least significant group first: each
byte contributes its low seven bits. -/
def varintValue : List Byte → Nat
  | [] => 0
  | b :: rest => b.val % 128 + 128 * varintValue rest

/-- The byte sequence `bs` is exactly one unsigned varint of a 64-bit value: every
byte but the last carries the continuation bit, the last does not, there are at most
ten bytes, and a tenth byte is 0 or 1. -/
def IsUvarint (bs : List Byte) : Prop :=
  ∃ init last, bs = init ++ [last] ∧ (∀ b ∈ init, 0x80 ≤ b.val) ∧ last.val < 0x80 ∧
    init.length < MaxVarintLen64 ∧ (init.length = MaxVarintLen64 - 1 → last.val ≤ 1)

/-- The unsigned varint of `x`: seven bits per byte, least significant group first,
the continuation bit on every byte but the last. -/
def uvarintBytes (x : Nat) : List Byte :=
  if _h : x < 0x80 then [Fin.ofNat x]
  else Fin.ofNat (x % 128 + 128) :: uvarintBytes (x / 128)
termination_by x
decreasing_by omega

/-- The byte sequence `bs` is a varint that the end of the buffer cuts off: every byte
carries the continuation bit and there are no more bytes than the ten of a 64-bit
varint (the empty sequence included). -/
def IsCutOffVarint (bs : List Byte) : Prop :=
  (∀ b ∈ bs, 0x80 ≤ b.val) ∧ bs.length ≤ MaxVarintLen64

/-- The byte sequence `bs` runs to more than the ten bytes of a 64-bit varint without
ending one: its first ten bytes carry the continuation bit and at least one more byte
follows, whatever it is. -/
def IsOverlongVarint (bs : List Byte) : Prop :=
  ∃ init next rest, bs = init ++ next :: rest ∧ (∀ b ∈ init, 0x80 ≤ b.val) ∧
    init.length = MaxVarintLen64

/-- The byte sequence `bs` carries the continuation bit on every byte, so that the
varint it begins is cut off by the end of the bytes, however many bytes there are. -/
def IsUnterminated (bs : List Byte) : Prop :=
  ∀ b ∈ bs, 0x80 ≤ b.val

/-- The byte sequence `bs` is a complete varint (continuation bytes, then a final
byte) of a value that does not fit in 64 bits: it has ten bytes and the tenth is
above 1, or it has more than ten bytes. -/
def IsTooBigVarint (bs : List Byte) : Prop :=
  ∃ init last, bs = init ++ [last] ∧ (∀ b ∈ init, 0x80 ≤ b.val) ∧ last.val < 0x80 ∧
    ((init.length = MaxVarintLen64 - 1 ∧ 1 < last.val) ∨ MaxVarintLen64 ≤ init.length)

/-! ## Lemmas on `binary.Uvarint` -/

theorem lor_shift_eq (x b s : Nat) (hx : x < 2 ^ s) (hb : b * 2 ^ s < 2 ^ 64) :
    x ||| (b <<< s) % 2 ^ 64 = x + 2 ^ s * b := by
  rw [Nat.shiftLeft_eq, Nat.mod_eq_of_lt hb, Nat.lor_comm, Nat.mul_comm b,
    ← Nat.mul_add_lt_is_or hx b, Nat.add_comm]

theorem and_7f (b : Nat) : b &&& 0x7f = b % 128 :=
  Nat.and_pow_two_sub_one_eq_mod b 7

theorem uvarintLoop_append (init : List Byte) (last : Byte) (rest : List Byte) :
    ∀ (i x : Nat), (∀ b ∈ init, 0x80 ≤ b.val) → last.val < 0x80 →
      i + init.length < 10 → (i + init.length = 9 → last.val ≤ 1) → x < 2 ^ (7 * i) →
      uvarintLoop (init ++ last :: rest) i x (7 * i)
        = (x + 2 ^ (7 * i) * varintValue (init ++ [last]),
            ((i + init.length + 1 : Nat) : Int)) := by
  induction init with
  | nil =>
    intro i x _ hlast hi h9 hx
    simp only [List.length_nil, Nat.add_zero] at hi h9
    have hpow : 2 ^ (7 * i) ≤ 2 ^ 56 ∨ (i = 9 ∧ last.val ≤ 1) := by
      by_cases h : i = 9
      · exact Or.inr ⟨h, h9 h⟩
      · exact Or.inl (Nat.pow_le_pow_right (by norm_num) (by omega))
    have hb : last.val * 2 ^ (7 * i) < 2 ^ 64 := by
      rcases hpow with h | ⟨h, h1⟩
      · calc last.val * 2 ^ (7 * i) ≤ 127 * 2 ^ 56 :=
              Nat.mul_le_mul (by omega) h
          _ < 2 ^ 64 := by norm_num
      · subst h
        calc last.val * 2 ^ (7 * 9) ≤ 1 * 2 ^ (7 * 9) := Nat.mul_le_mul_right _ h1
          _ < 2 ^ 64 := by norm_num
    have hne : ¬ (i = MaxVarintLen64) := by simp only [MaxVarintLen64]; omega
    have hov : ¬ (i = MaxVarintLen64 - 1 ∧ last.val > 1) := by
      simp only [MaxVarintLen64]
      rintro ⟨h, h1⟩
      have := h9 h
      omega
    have hl : last.val % 128 = last.val := Nat.mod_eq_of_lt hlast
    simp only [List.nil_append, uvarintLoop, hne, hov, hlast, if_true, if_false,
      lor_shift_eq x last.val (7 * i) hx hb, varintValue, hl, List.length_nil]
    simp
  | cons b init ih =>
    intro i x hinit hlast hi h9 hx
    simp only [List.length_cons] at hi h9
    have hb128 : 0x80 ≤ b.val := hinit b (List.mem_cons_self _ _)
    have hne : ¬ (i = MaxVarintLen64) := by simp only [MaxVarintLen64]; omega
    have hnlt : ¬ (b.val < 0x80) := by omega
    have hpow : 2 ^ (7 * i) ≤ 2 ^ 56 := Nat.pow_le_pow_right (by norm_num) (by omega)
    have hb : (b.val % 128) * 2 ^ (7 * i) < 2 ^ 64 := by
      calc (b.val % 128) * 2 ^ (7 * i) ≤ 127 * 2 ^ 56 :=
            Nat.mul_le_mul (by omega) hpow
        _ < 2 ^ 64 := by norm_num
    have hx2 : x + 2 ^ (7 * i) * (b.val % 128) < 2 ^ (7 * (i + 1)) := by
      have e : 2 ^ (7 * (i + 1)) = 2 ^ (7 * i) * 128 := by
        rw [Nat.mul_add, Nat.pow_add]
      rw [e]
      have : b.val % 128 < 128 := Nat.mod_lt _ (by norm_num)
      nlinarith
    have hstep := ih (i + 1) (x + 2 ^ (7 * i) * (b.val % 128))
      (fun c hc => hinit c (List.mem_cons_of_mem _ hc)) hlast (by omega)
      (fun h => h9 (by omega)) hx2
    have e7 : 7 * i + 7 = 7 * (i + 1) := by ring
    simp only [List.cons_append, uvarintLoop, hne, hnlt, if_false, and_7f,
      lor_shift_eq x (b.val % 128) (7 * i) hx hb, e7, List.append_eq, hstep, varintValue]
    have e : 2 ^ (7 * (i + 1)) = 2 ^ (7 * i) * 128 := by
      rw [Nat.mul_add, Nat.pow_add]
    rw [e]
    refine Prod.ext ?_ ?_
    · simp only; ring
    · simp only [List.length_cons]; push_cast; ring

theorem Uvarint_of_isUvarint (bs rest : List Byte) (h : IsUvarint bs) :
    Uvarint (bs ++ rest) = (varintValue bs, (bs.length : Int)) := by
  obtain ⟨init, last, rfl, hinit, hlast, hlen, h9⟩ := h
  simp only [MaxVarintLen64] at hlen h9
  have := uvarintLoop_append init last rest 0 0 hinit hlast (by omega)
    (by intro h; exact h9 (by omega)) (by norm_num)
  simp only [Nat.mul_zero, Nat.pow_zero, Nat.one_mul, Nat.zero_add] at this
  simp only [Uvarint, List.append_assoc, List.singleton_append, this, List.length_append,
    List.length_singleton]

theorem uvarintLoop_shape (data : List Byte) :
    ∀ (i x s v : Nat) (n : Int), i ≤ 10 → uvarintLoop data i x s = (v, n) → 0 < n →
      ∃ init last rest, data = init ++ last :: rest ∧ (∀ b ∈ init, 0x80 ≤ b.val) ∧
        last.val < 0x80 ∧ i + init.length < 10 ∧ (i + init.length = 9 → last.val ≤ 1) := by
  induction data with
  | nil =>
    intro i x s v n _ h hn
    simp only [uvarintLoop, Prod.mk.injEq] at h
    omega
  | cons b rest ih =>
    intro i x s v n hi h hn
    simp only [uvarintLoop, MaxVarintLen64] at h
    by_cases h10 : i = 10
    · simp only [h10, if_true, Prod.mk.injEq] at h
      omega
    · simp only [h10, if_false] at h
      by_cases hb : b.val < 0x80
      · simp only [hb, if_true] at h
        by_cases hov : i = 10 - 1 ∧ b.val > 1
        · simp only [hov, and_self, if_true, Prod.mk.injEq] at h
          omega
        · refine ⟨[], b, rest, rfl, by simp, hb, by simp; omega, ?_⟩
          intro h9
          simp only [List.length_nil, Nat.add_zero] at h9
          by_contra hgt
          exact hov ⟨by omega, by omega⟩
      · simp only [hb, if_false] at h
        obtain ⟨init, last, rest2, hd, hinit, hlast, hlen, h9⟩ :=
          ih (i + 1) _ _ v n (by omega) h hn
        refine ⟨b :: init, last, rest2, by simp [hd], ?_, hlast, ?_, ?_⟩
        · intro c hc
          rcases List.mem_cons.mp hc with rfl | hc
          · omega
          · exact hinit c hc
        · simp only [List.length_cons]; omega
        · intro h
          simp only [List.length_cons] at h
          exact h9 (by omega)

theorem Uvarint_pos (data : List Byte) (v : Nat) (n : Int) (h : Uvarint data = (v, n))
    (hn : 0 < n) :
    ∃ bs rest, data = bs ++ rest ∧ IsUvarint bs ∧ v = varintValue bs ∧
      n = (bs.length : Int) := by
  obtain ⟨init, last, rest, hd, hinit, hlast, hlen, h9⟩ :=
    uvarintLoop_shape data 0 0 0 v n (by norm_num) h hn
  have hU : IsUvarint (init ++ [last]) :=
    ⟨init, last, rfl, hinit, hlast, by simp only [MaxVarintLen64]; omega,
      by simp only [MaxVarintLen64]; intro h; exact h9 (by omega)⟩
  have hval := Uvarint_of_isUvarint (init ++ [last]) rest hU
  have hd2 : data = (init ++ [last]) ++ rest := by simp [hd]
  rw [← hd2, h] at hval
  simp only [Prod.mk.injEq] at hval
  exact ⟨init ++ [last], rest, hd2, hU, hval.1, hval.2⟩

theorem IsUvarint.length_pos {bs : List Byte} (h : IsUvarint bs) : 0 < bs.length := by
  obtain ⟨init, last, rfl, _⟩ := h
  simp

theorem uvError_pos (n : Int) (h : 0 < n) : uvError n = none := by
  simp only [uvError]
  rw [if_neg (by omega), if_neg (by omega)]

theorem uvError_eq_none (n : Int) (h : uvError n = none) : 0 < n := by
  simp only [uvError] at h
  by_cases h0 : n = 0
  · simp [h0] at h
  · by_cases h1 : n < 0
    · simp [h0, h1] at h
    · omega

/-- The outcome of `validateIDData` on a buffer that starts with a version varint
`v1` and continues with a variant varint `v2`. -/
theorem validateIDData_split (v1 v2 p : List Byte) (h1 : IsUvarint v1) (h2 : IsUvarint v2) :
    validateIDData (v1 ++ v2 ++ p) =
      if varintValue v1 ≠ Version1 then some (Error.unexpectedVersion (varintValue v1))
      else if varintValue v2 ≠ RandomVariant ∧ varintValue v2 ≠ PubKeyVariant then
        some (Error.unexpectedVariant (varintValue v2))
      else if p.length = 0 then some Error.noPayload
      else none := by
  have e1 : Uvarint (v1 ++ v2 ++ p) = (varintValue v1, (v1.length : Int)) := by
    rw [List.append_assoc]
    exact Uvarint_of_isUvarint v1 (v2 ++ p) h1
  have u1 : uvError (v1.length : Int) = none := uvError_pos _ (by have := h1.length_pos; omega)
  have u2 : uvError (v2.length : Int) = none := uvError_pos _ (by have := h2.length_pos; omega)
  have d1 : (v1 ++ v2 ++ p).drop v1.length = v2 ++ p := by
    rw [List.append_assoc, List.drop_left]
  have d2 : (v1 ++ v2 ++ p).drop ((v1.length : Int) + (v2.length : Int)).toNat = p := by
    have : ((v1.length : Int) + (v2.length : Int)).toNat = (v1 ++ v2).length := by
      simp only [List.length_append]; omega
    rw [this, List.drop_left]
  have e2 : Uvarint (v2 ++ p) = (varintValue v2, (v2.length : Int)) :=
    Uvarint_of_isUvarint v2 p h2
  simp only [validateIDData, getVersion, e1, u1, Int.toNat_ofNat, d1, e2, u2, d2]

theorem validateIDData_eq_none (data : List Byte) (h : validateIDData data = none) :
    0 < (Uvarint data).2 ∧ (Uvarint data).1 = Version1 ∧
      0 < (Uvarint (data.drop (Uvarint data).2.toNat)).2 ∧
      ((Uvarint (data.drop (Uvarint data).2.toNat)).1 = RandomVariant ∨
        (Uvarint (data.drop (Uvarint data).2.toNat)).1 = PubKeyVariant) ∧
      data.drop ((Uvarint data).2 +
        (Uvarint (data.drop (Uvarint data).2.toNat)).2).toNat ≠ [] := by
  simp only [validateIDData, getVersion] at h
  cases hu : uvError (Uvarint data).2 with
  | some e => simp [hu] at h
  | none =>
    simp only [hu] at h
    by_cases hv : (Uvarint data).1 = Version1
    · simp only [hv, ne_eq, not_true_eq_false, if_false] at h
      cases hu2 : uvError (Uvarint (data.drop (Uvarint data).2.toNat)).2 with
      | some e => simp [hu2] at h
      | none =>
        simp only [hu2] at h
        split at h
        · simp at h
        · rename_i hvar
          split at h
          · simp at h
          · rename_i hp
            refine ⟨uvError_eq_none _ hu, hv, uvError_eq_none _ hu2, ?_, ?_⟩
            · by_contra hc
              exact hvar ⟨fun h => hc (Or.inl h), fun h => hc (Or.inr h)⟩
            · intro hnil
              exact hp (by rw [hnil]; rfl)
    · simp [hv] at h

/-! ## Lemmas on `binary.PutUvarint` and `newID` -/

theorem uvarintBytes_lt (x : Nat) (h : x < 0x80) : uvarintBytes x = [Fin.ofNat x] := by
  rw [uvarintBytes, dif_pos h]

theorem uvarintBytes_ge (x : Nat) (h : ¬ x < 0x80) :
    uvarintBytes x = Fin.ofNat (x % 128 + 128) :: uvarintBytes (x / 128) := by
  rw [uvarintBytes, dif_neg h]

theorem uvarintBytes_length_le (k : Nat) :
    ∀ x, x < 2 ^ (7 * (k + 1)) → (uvarintBytes x).length ≤ k + 1 := by
  induction k with
  | zero =>
    intro x hx
    rw [uvarintBytes_lt x (by simpa using hx)]
    simp
  | succ k ih =>
    intro x hx
    by_cases h : x < 0x80
    · rw [uvarintBytes_lt x h]; simp
    · rw [uvarintBytes_ge x h, List.length_cons]
      have e : 2 ^ (7 * (k + 1 + 1)) = 2 ^ (7 * (k + 1)) * 128 := by
        rw [Nat.mul_add 7 (k + 1) 1, Nat.pow_add]
      have : x / 128 < 2 ^ (7 * (k + 1)) := by
        rw [Nat.div_lt_iff_lt_mul (by norm_num)]
        omega
      have := ih (x / 128) this
      omega

theorem uvarintBytes_length_le_ten (x : Nat) (hx : x < 2 ^ 64) :
    (uvarintBytes x).length ≤ 10 :=
  uvarintBytes_length_le 9 x (lt_of_lt_of_le hx (by norm_num))

theorem uvarintBytes_length_pos (x : Nat) : 0 < (uvarintBytes x).length := by
  by_cases h : x < 0x80
  · rw [uvarintBytes_lt x h]; simp
  · rw [uvarintBytes_ge x h]; simp

theorem setByte_append (pre post : List Byte) (m v : Byte) :
    setByte (pre ++ m :: post) pre.length v = some (pre ++ v :: post) := by
  have hlt : pre.length < (pre ++ m :: post).length := by simp
  simp only [setByte, hlt, if_true]
  congr 1
  induction pre with
  | nil => rfl
  | cons a pre ih =>
    simp only [List.cons_append, List.length_cons, List.set_cons_succ]
    rw [ih (by simp)]

set_option maxRecDepth 100000 in
theorem or_0x80 (y : Fin 256) : y.val ||| 0x80 = y.val % 128 + 128 := by
  revert y; decide

theorem byte_or_0x80 (x : Nat) :
    (Fin.ofNat ((x % 256) ||| 0x80) : Byte) = Fin.ofNat (x % 128 + 128) := by
  have := or_0x80 ⟨x % 256, Nat.mod_lt _ (by norm_num)⟩
  simp only at this
  rw [this]
  congr 1
  omega

theorem putUvarintLoop_eq (x : Nat) :
    ∀ (pre mid post : List Byte), mid.length = (uvarintBytes x).length →
      putUvarintLoop (pre ++ mid ++ post) x pre.length
        = some (pre ++ uvarintBytes x ++ post, pre.length + (uvarintBytes x).length) := by
  induction x using Nat.strong_induction_on with
  | _ x ih =>
    intro pre mid post hmid
    by_cases h : x < 0x80
    · rw [uvarintBytes_lt x h] at hmid ⊢
      match mid, hmid with
      | [m], _ =>
        rw [putUvarintLoop, dif_neg (by omega)]
        have : pre ++ [m] ++ post = pre ++ m :: post := by simp
        rw [this, setByte_append]
        have e : (Fin.ofNat (x % 256) : Byte) = Fin.ofNat x := by
          congr 1; omega
        simp [e]
    · rw [uvarintBytes_ge x h] at hmid ⊢
      match mid, hmid with
      | m :: mid', hmid' =>
        rw [putUvarintLoop, dif_pos (by omega)]
        have : pre ++ m :: mid' ++ post = pre ++ m :: (mid' ++ post) := by simp
        rw [this, setByte_append, byte_or_0x80]
        have hsh : x >>> 7 = x / 128 := by
          rw [Nat.shiftRight_eq_div_pow]
        have hlt : x / 128 < x := by omega
        have hm : mid'.length = (uvarintBytes (x / 128)).length := by
          simpa using hmid'
        have := ih (x / 128) hlt (pre ++ [Fin.ofNat (x % 128 + 128)]) mid' post hm
        simp only [List.length_append, List.length_singleton, List.append_assoc,
          List.singleton_append] at this
        simp only [List.cons_append] at this
        simp only [hsh]
        rw [this, List.length_cons]
        simp only [List.append_assoc, List.cons_append, Option.some.injEq, Prod.mk.injEq,
          true_and]
        omega

theorem PutUvarint_eq (buf : List Byte) (x : Nat)
    (h : (uvarintBytes x).length ≤ buf.length) :
    PutUvarint buf x
      = some (uvarintBytes x ++ buf.drop (uvarintBytes x).length,
          (uvarintBytes x).length) := by
  have := putUvarintLoop_eq x [] (buf.take (uvarintBytes x).length)
    (buf.drop (uvarintBytes x).length) (by simp [h])
  simpa [PutUvarint] using this

theorem newID_eq (version variant : Nat) (payload : List Byte)
    (hv : version < 2 ^ 64) (hr : variant < 2 ^ 64) :
    newID version variant payload
      = some (uvarintBytes version ++ uvarintBytes variant ++ payload) := by
  have l1 := uvarintBytes_length_le_ten version hv
  have l2 := uvarintBytes_length_le_ten variant hr
  generalize he1 : uvarintBytes version = e1 at l1
  generalize he2 : uvarintBytes variant = e2 at l2
  have p1 : PutUvarint (List.replicate (2 * MaxVarintLen64 + payload.length) 0) version
      = some (e1 ++ List.replicate (20 + payload.length - e1.length) 0, e1.length) := by
    rw [PutUvarint_eq _ _ (by rw [he1]; simp [MaxVarintLen64]; omega), he1]
    simp [MaxVarintLen64]
  have p2 : PutUvarint (List.replicate (20 + payload.length - e1.length) 0) variant
      = some (e2 ++ List.replicate (20 + payload.length - e1.length - e2.length) 0,
          e2.length) := by
    rw [PutUvarint_eq _ _ (by rw [he2]; simp; omega), he2]
    simp
  simp only [newID, Nat.mod_eq_of_lt hv, Nat.mod_eq_of_lt hr, p1]
  have c1 : ¬ (e1.length > (e1 ++ List.replicate (20 + payload.length - e1.length)
      (0 : Byte)).length) := by simp
  rw [if_neg c1, List.drop_left, p2]
  simp only [List.take_left]
  have c2 : ¬ (e1.length + e2.length > (e1 ++ (e2 ++ List.replicate
      (20 + payload.length - e1.length - e2.length) (0 : Byte))).length) := by simp
  rw [if_neg c2]
  have d2 : (e1 ++ (e2 ++ List.replicate (20 + payload.length - e1.length - e2.length)
      (0 : Byte))).drop (e1.length + e2.length)
      = List.replicate (20 + payload.length - e1.length - e2.length) 0 := by
    rw [← List.append_assoc, ← List.length_append, List.drop_left]
  have t2 : (e1 ++ (e2 ++ List.replicate (20 + payload.length - e1.length - e2.length)
      (0 : Byte))).take (e1.length + e2.length) = e1 ++ e2 := by
    rw [← List.append_assoc, ← List.length_append, List.take_left]
  simp only [d2, t2, copy, List.length_replicate]
  have tk : payload.take (20 + payload.length - e1.length - e2.length) = payload :=
    List.take_of_length_le (by omega)
  have c3 : ¬ (min (20 + payload.length - e1.length - e2.length) payload.length
      ≠ payload.length) := by
    simp only [ne_eq, not_not]; omega
  rw [if_neg c3, tk]
  have c4 : ¬ (e1.length + e2.length + payload.length
      > (e1 ++ e2 ++ (payload ++ List.drop payload.length (List.replicate
          (20 + payload.length - e1.length - e2.length) (0 : Byte)))).length) := by
    simp
    omega
  rw [if_neg c4]
  have : e1 ++ e2 ++ (payload ++ List.drop payload.length (List.replicate
      (20 + payload.length - e1.length - e2.length) (0 : Byte)))
      = (e1 ++ e2 ++ payload) ++ List.drop payload.length (List.replicate
      (20 + payload.length - e1.length - e2.length) (0 : Byte)) := by
    simp
  rw [this]
  have hl : e1.length + e2.length + payload.length = (e1 ++ e2 ++ payload).length := by
    simp
    omega
  rw [hl, List.take_left]

theorem uvarintBytes_Version1 : uvarintBytes Version1 = [1] := by
  rw [uvarintBytes_lt _ (by decide)]; rfl

theorem uvarintBytes_RandomVariant : uvarintBytes RandomVariant = [0x55] := by
  rw [uvarintBytes_lt _ (by decide)]; rfl

theorem uvarintBytes_PubKeyVariant : uvarintBytes PubKeyVariant = [0x70] := by
  rw [uvarintBytes_lt _ (by decide)]; rfl

theorem NewRandomIDV1_eq (r : Nat → Byte) :
    NewRandomIDV1 (some r)
      = some ((1 : Byte) :: 0x55 :: (List.range randomVariantSize).map r) := by
  simp only [NewRandomIDV1]
  rw [newID_eq _ _ _ (by decide) (by decide), uvarintBytes_Version1,
    uvarintBytes_RandomVariant]
  rfl

theorem NewPubKeyIDV1_eq (p : List Byte) :
    NewPubKeyIDV1 (.ok p) = some ((1 : Byte) :: 0x70 :: p) := by
  rw [NewPubKeyIDV1, newID_eq _ _ _ (by decide) (by decide), uvarintBytes_Version1,
    uvarintBytes_PubKeyVariant]
  rfl

theorem uvarintBytes_shape (j : Nat) :
    ∀ x, x < 2 ^ (7 * j + 1) →
      ∃ init last, uvarintBytes x = init ++ [last] ∧ (∀ b ∈ init, 0x80 ≤ b.val) ∧
        last.val < 0x80 ∧ init.length ≤ j ∧ (init.length = j → last.val ≤ 1) ∧
        varintValue (init ++ [last]) = x := by
  induction j with
  | zero =>
    intro x hx
    have hx2 : x < 2 := by simpa using hx
    refine ⟨[], Fin.ofNat x, ?_, by simp, ?_, by simp, ?_, ?_⟩
    · rw [uvarintBytes_lt x (by omega)]; rfl
    · show x % 256 < 0x80
      omega
    · intro _
      show x % 256 ≤ 1
      omega
    · show x % 256 % 128 + 128 * 0 = x
      omega
  | succ j ih =>
    intro x hx
    by_cases h : x < 0x80
    · refine ⟨[], Fin.ofNat x, ?_, by simp, ?_, by simp, ?_, ?_⟩
      · rw [uvarintBytes_lt x h]; rfl
      · show x % 256 < 0x80
        omega
      · intro h0
        simp at h0
      · show x % 256 % 128 + 128 * 0 = x
        omega
    · have e : 2 ^ (7 * (j + 1) + 1) = 2 ^ (7 * j + 1) * 128 := by
        rw [show 7 * (j + 1) + 1 = (7 * j + 1) + 7 by ring, Nat.pow_add]
      have hlt : x / 128 < 2 ^ (7 * j + 1) := by
        rw [Nat.div_lt_iff_lt_mul (by norm_num)]
        omega
      obtain ⟨init, last, hb, hinit, hlast, hlen, h9, hval⟩ := ih (x / 128) hlt
      refine ⟨Fin.ofNat (x % 128 + 128) :: init, last, ?_, ?_, hlast, ?_, ?_, ?_⟩
      · rw [uvarintBytes_ge x h, hb]; rfl
      · intro c hc
        rcases List.mem_cons.mp hc with rfl | hc
        · show 0x80 ≤ (x % 128 + 128) % 256
          omega
        · exact hinit c hc
      · simp only [List.length_cons]; omega
      · intro hl
        simp only [List.length_cons] at hl
        exact h9 (by omega)
      · show (x % 128 + 128) % 256 % 128 + 128 * varintValue (init ++ [last]) = x
        rw [hval]
        omega

/-- The varint written for a 64-bit value is one unsigned varint, and it reads back
as that value. -/
theorem Uvarint_uvarintBytes (x : Nat) (hx : x < 2 ^ 64) (rest : List Byte) :
    IsUvarint (uvarintBytes x) ∧
    Uvarint (uvarintBytes x ++ rest) = (x, ((uvarintBytes x).length : Int)) := by
  obtain ⟨init, last, hb, hinit, hlast, hlen, h9, hval⟩ := uvarintBytes_shape 9 x hx
  have hU : IsUvarint (uvarintBytes x) :=
    ⟨init, last, hb, hinit, hlast, by simp only [MaxVarintLen64]; omega,
      by simp only [MaxVarintLen64]; exact h9⟩
  refine ⟨hU, ?_⟩
  rw [Uvarint_of_isUvarint _ rest hU, hb, hval]

theorem Version_cons_one (rest : List Byte) : ID.Version ((1 : Byte) :: rest) = some Version1 := by
  rfl

theorem Variant_cons_one (t : Byte) (ht : t.val < 0x80) (rest : List Byte) :
    ID.Variant ((1 : Byte) :: t :: rest) = some t.val := by
  have h1 : uvarint ((1 : Byte) :: t :: rest) = (1, 1) := rfl
  have h2 : uvarint (t :: rest) = (t.val, 1) := by
    simp only [uvarint, uvarintLoop, MaxVarintLen64, ht]
    simp
    omega
  simp only [ID.Variant, h1]
  rw [if_neg (by simp; omega)]
  simp [h2]

/-! ## Lemmas on the order of identifiers -/

theorem stringLess_iff_lex (a b : List Byte) :
    stringLess a b = true ↔ List.Lex (· < ·) a b := by
  induction a generalizing b with
  | nil =>
    cases b with
    | nil => simp [stringLess]
    | cons y ys => simp [stringLess, List.Lex.nil]
  | cons x xs ih =>
    cases b with
    | nil => simp [stringLess]
    | cons y ys =>
      simp only [stringLess]
      by_cases h1 : x.val < y.val
      · simp only [h1, if_true, true_iff]
        exact List.Lex.rel (Fin.lt_def.mpr h1)
      · by_cases h2 : y.val < x.val
        · simp only [h1, h2, if_true, if_false, Bool.false_eq_true, false_iff]
          intro hl
          cases hl with
          | cons h => omega
          | rel h => exact h1 (Fin.lt_def.mp h)
        · have hxy : x = y := Fin.ext (by omega)
          subst hxy
          simp only [h1, if_false, ih ys]
          constructor
          · intro h; exact List.Lex.cons h
          · intro hl
            cases hl with
            | cons h => exact h
            | rel h => exact absurd (Fin.lt_def.mp h) h1

theorem stringLess_irrefl (a : List Byte) : stringLess a a = false := by
  induction a with
  | nil => rfl
  | cons x xs ih => simp [stringLess, ih]

theorem stringLess_asymm (a b : List Byte) (h : stringLess a b = true) :
    stringLess b a = false := by
  induction a generalizing b with
  | nil =>
    cases b with
    | nil => simp [stringLess] at h
    | cons y ys => simp [stringLess]
  | cons x xs ih =>
    cases b with
    | nil => simp [stringLess] at h
    | cons y ys =>
      simp only [stringLess] at h ⊢
      by_cases h1 : x.val < y.val
      · have h2 : ¬ y.val < x.val := by omega
        simp [h1, h2]
      · by_cases h2 : y.val < x.val
        · simp [h1, h2] at h
        · simp only [h1, h2, if_false] at h ⊢
          exact ih ys h

theorem stringLess_total (a b : List Byte) :
    stringLess a b = true ∨ a = b ∨ stringLess b a = true := by
  induction a generalizing b with
  | nil =>
    cases b with
    | nil => simp
    | cons y ys => simp [stringLess]
  | cons x xs ih =>
    cases b with
    | nil => simp [stringLess]
    | cons y ys =>
      simp only [stringLess]
      by_cases h1 : x.val < y.val
      · simp [h1]
      · by_cases h2 : y.val < x.val
        · simp [h1, h2]
        · have hxy : x = y := Fin.ext (by omega)
          subst hxy
          simp only [h1, if_false, List.cons.injEq, true_and]
          exact ih ys

theorem stringLess_trans (a b c : List Byte) (hab : stringLess a b = true)
    (hbc : stringLess b c = true) : stringLess a c = true := by
  induction a generalizing b c with
  | nil =>
    cases c with
    | nil => cases b <;> simp [stringLess] at hbc
    | cons z zs => simp [stringLess]
  | cons x xs ih =>
    cases b with
    | nil => simp [stringLess] at hab
    | cons y ys =>
      cases c with
      | nil => simp [stringLess] at hbc
      | cons z zs =>
        simp only [stringLess] at hab hbc ⊢
        by_cases h1 : x.val < y.val
        · by_cases h3 : y.val < z.val
          · have : x.val < z.val := by omega
            simp [this]
          · by_cases h4 : z.val < y.val
            · simp [h3, h4] at hbc
            · have : x.val < z.val := by omega
              simp [this]
        · by_cases h2 : y.val < x.val
          · simp [h1, h2] at hab
          · simp only [h1, h2, if_false] at hab
            have hxy : x.val = y.val := by omega
            by_cases h3 : y.val < z.val
            · have : x.val < z.val := by omega
              simp [this]
            · by_cases h4 : z.val < y.val
              · simp [h3, h4] at hbc
              · simp only [h3, h4, if_false] at hbc
                have h5 : ¬ x.val < z.val := by omega
                have h6 : ¬ z.val < x.val := by omega
                simp only [h5, h6, if_false]
                exact ih ys zs hab hbc

theorem Less_eq (s : IDSlice) (i j : Nat) (a b : ID) (ha : s.get? i = some a)
    (hb : s.get? j = some b) : IDSlice.Less s i j = some (stringLess a b) := by
  simp only [IDSlice.Less, ha, hb]

/-! ## Lemmas on the Base32 codec -/

theorem lor_eq_add (k a b : Nat) (ha : a < 2 ^ k) (hb : b % 2 ^ k = 0) :
    a ||| b = a + b := by
  have e : b = 2 ^ k * (b / 2 ^ k) := by
    have := Nat.div_add_mod b (2 ^ k)
    omega
  rw [e, Nat.lor_comm, ← Nat.mul_add_lt_is_or ha, Nat.add_comm]

theorem and_1f (x : Nat) : x &&& 0x1F = x % 32 :=
  Nat.and_pow_two_sub_one_eq_mod x 5

theorem and_31 (x : Nat) : x &&& 31 = x % 32 :=
  Nat.and_pow_two_sub_one_eq_mod x 5

/-- The 5-bit blocks of a quantum, in arithmetic form. -/
theorem unpack_eq (s0 s1 s2 s3 s4 : Byte) :
    unpack s0 s1 s2 s3 s4 =
      [ s0.val / 8,
        s1.val / 64 + (s0.val % 8) * 4,
        (s1.val / 2) % 32,
        s2.val / 16 + (s1.val % 2) * 16,
        s3.val / 128 + (s2.val % 16) * 2,
        (s3.val / 4) % 32,
        s4.val / 32 + (s3.val % 4) * 8,
        s4.val % 32 ] := by
  have h0 := s0.isLt
  have h1 := s1.isLt
  have h2 := s2.isLt
  have h3 := s3.isLt
  have h4 := s4.isLt
  simp only [unpack, Nat.shiftLeft_eq, Nat.shiftRight_eq_div_pow, and_1f]
  rw [lor_eq_add 2 (s1.val / 2 ^ 6 % 32) _ (by omega) (by omega),
    lor_eq_add 4 (s2.val / 2 ^ 4 % 32) _ (by omega) (by omega),
    lor_eq_add 1 (s3.val / 2 ^ 7) _ (by omega) (by omega),
    lor_eq_add 3 (s4.val / 2 ^ 5) _ (by omega) (by omega)]
  simp only [List.cons.injEq, and_true, true_and]
  refine ⟨by omega, by omega, by omega, by omega⟩

theorem lor_eq_add_left (k a b : Nat) (ha : a % 2 ^ k = 0) (hb : b < 2 ^ k) :
    a ||| b = a + b := by
  rw [Nat.lor_comm, lor_eq_add k b a hb ha, Nat.add_comm]

/-- The bytes packed from eight 5-bit blocks, in arithmetic form. -/
theorem pack_eq (d0 d1 d2 d3 d4 d5 d6 d7 : Nat) (h0 : d0 < 32) (h1 : d1 < 32)
    (h2 : d2 < 32) (h3 : d3 < 32) (h4 : d4 < 32) (h5 : d5 < 32) (h6 : d6 < 32)
    (h7 : d7 < 32) (dlen n : Nat)
    (hn : n = if dlen = 8 then 5 else if dlen = 7 then 4 else if dlen = 5 then 3
      else if dlen = 4 then 2 else if dlen = 2 then 1 else 0) :
    pack [d0, d1, d2, d3, d4, d5, d6, d7] dlen =
      ([ Fin.ofNat (d0 * 8 + d1 / 4),
         Fin.ofNat ((d1 % 4) * 64 + d2 * 2 + d3 / 16),
         Fin.ofNat ((d3 % 16) * 16 + d4 / 2),
         Fin.ofNat ((d4 % 2) * 128 + d5 * 4 + d6 / 8),
         Fin.ofNat ((d6 % 8) * 32 + d7) ] : List Byte).take n := by
  simp only [pack, List.getD_cons_zero, List.getD_cons_succ, Nat.shiftLeft_eq,
    Nat.shiftRight_eq_div_pow, ← hn]
  rw [lor_eq_add_left 3 (d0 * 2 ^ 3 % 256) (d1 / 2 ^ 2) (by omega) (by omega),
    lor_eq_add_left 6 (d1 * 2 ^ 6 % 256) (d2 * 2 ^ 1 % 256) (by omega) (by omega),
    lor_eq_add_left 1 (d1 * 2 ^ 6 % 256 + d2 * 2 ^ 1 % 256) (d3 / 2 ^ 4) (by omega) (by omega),
    lor_eq_add_left 4 (d3 * 2 ^ 4 % 256) (d4 / 2 ^ 1) (by omega) (by omega),
    lor_eq_add_left 7 (d4 * 2 ^ 7 % 256) (d5 * 2 ^ 2 % 256) (by omega) (by omega),
    lor_eq_add_left 2 (d4 * 2 ^ 7 % 256 + d5 * 2 ^ 2 % 256) (d6 / 2 ^ 3) (by omega) (by omega),
    lor_eq_add_left 5 (d6 * 2 ^ 5 % 256) d7 (by omega) (by omega)]
  congr 1
  simp only [List.cons.injEq, and_true]
  refine ⟨?_, ?_, ?_, ?_, ?_⟩ <;> (congr 1; omega)

theorem decodeMap_encodeChar (v : Nat) (h : v < 32) : decodeMap (encodeChar v) = v := by
  interval_cases v <;> rfl

theorem encodeChar_not_newline (v : Nat) :
    ((encodeChar v).val != 13 && (encodeChar v).val != 10) = true := by
  have h : v &&& 31 < 32 := by rw [and_31]; omega
  simp only [encodeChar]
  generalize v &&& 31 = w at h
  interval_cases w <;> rfl

theorem byte_ofNat_val (s : Byte) (n : Nat) (h : n = s.val) : (Fin.ofNat n : Byte) = s := by
  subst h
  apply Fin.ext
  show s.val % 256 = s.val
  exact Nat.mod_eq_of_lt s.isLt

/-- Decoding the eight characters of a full quantum gives back its five bytes. -/
theorem pack_unpack (s0 s1 s2 s3 s4 : Byte) (dlen n : Nat)
    (hn : n = if dlen = 8 then 5 else if dlen = 7 then 4 else if dlen = 5 then 3
      else if dlen = 4 then 2 else if dlen = 2 then 1 else 0) :
    pack (unpack s0 s1 s2 s3 s4) dlen = [s0, s1, s2, s3, s4].take n := by
  have h0 := s0.isLt
  have h1 := s1.isLt
  have h2 := s2.isLt
  have h3 := s3.isLt
  have h4 := s4.isLt
  rw [unpack_eq, pack_eq _ _ _ _ _ _ _ _ (by omega) (by omega) (by omega) (by omega)
    (by omega) (by omega) (by omega) (by omega) dlen n hn]
  congr 1
  simp only [List.cons.injEq, and_true]
  refine ⟨?_, ?_, ?_, ?_, ?_⟩ <;> (apply byte_ofNat_val; omega)

theorem unpack_lt (s0 s1 s2 s3 s4 : Byte) : ∀ v ∈ unpack s0 s1 s2 s3 s4, v < 32 := by
  have h0 := s0.isLt
  have h1 := s1.isLt
  have h2 := s2.isLt
  have h3 := s3.isLt
  have h4 := s4.isLt
  rw [unpack_eq]
  intro v hv
  simp only [List.mem_cons, List.mem_singleton, List.not_mem_nil, or_false] at hv
  omega

theorem map_decodeMap_encodeChar (qs : List Nat) (h : ∀ v ∈ qs, v < 32) :
    (qs.map encodeChar).map decodeMap = qs := by
  induction qs with
  | nil => rfl
  | cons q qs ih =>
    simp only [List.map_cons, List.cons.injEq]
    exact ⟨decodeMap_encodeChar q (h q (List.mem_cons_self _ _)),
      ih (fun v hv => h v (List.mem_cons_of_mem _ hv))⟩

theorem any_0xFF_false (qs : List Nat) (h : ∀ v ∈ qs, v < 32) :
    (qs.any fun v => v == 255) = false := by
  rw [List.any_eq_false]
  intro v hv
  have := h v hv
  simp only [beq_iff_eq]
  omega

theorem unpack_length (s0 s1 s2 s3 s4 : Byte) : (unpack s0 s1 s2 s3 s4).length = 8 := rfl

theorem base32DecodeLoop_full (qs : List Nat) (hlen : qs.length = 8)
    (h : ∀ v ∈ qs, v < 32) (tail : List Byte) :
    base32DecodeLoop (qs.map encodeChar ++ tail) =
      match base32DecodeLoop tail with
      | .error e => .error e
      | .ok out => .ok (pack qs 8 ++ out) := by
  match qs, hlen with
  | [q0, q1, q2, q3, q4, q5, q6, q7], _ =>
    have hm : List.map decodeMap [encodeChar q0, encodeChar q1, encodeChar q2,
        encodeChar q3, encodeChar q4, encodeChar q5, encodeChar q6, encodeChar q7]
        = [q0, q1, q2, q3, q4, q5, q6, q7] := map_decodeMap_encodeChar _ h
    simp only [List.map_cons, List.map_nil, List.cons_append, List.nil_append]
    rw [base32DecodeLoop, hm, any_0xFF_false _ h]
    simp

theorem base32DecodeLoop_short (qs : List Nat) (hlen : qs.length < 8)
    (h : ∀ v ∈ qs, v < 32) :
    base32DecodeLoop (qs.map encodeChar) = .ok (pack qs qs.length) := by
  rw [base32DecodeLoop.eq_2]
  · rw [map_decodeMap_encodeChar _ h, any_0xFF_false _ h]
    simp
  · intro c0 c1 c2 c3 c4 c5 c6 c7 rest he
    have := congrArg List.length he
    simp only [List.length_map, List.length_cons] at this
    omega

theorem pack_take (l : List Nat) (hl : l.length = 8) (k : Nat)
    (hk : k = 2 ∨ k = 4 ∨ k = 5 ∨ k = 7) : pack (l.take k) k = pack l k := by
  match l, hl with
  | [q0, q1, q2, q3, q4, q5, q6, q7], _ =>
    rcases hk with rfl | rfl | rfl | rfl <;> rfl

theorem base32DecodeLoop_last (s0 s1 s2 s3 s4 : Byte) (k n : Nat)
    (hk : k = 2 ∨ k = 4 ∨ k = 5 ∨ k = 7)
    (hn : n = if k = 8 then 5 else if k = 7 then 4 else if k = 5 then 3
      else if k = 4 then 2 else if k = 2 then 1 else 0) :
    base32DecodeLoop (((unpack s0 s1 s2 s3 s4).map encodeChar).take k)
      = .ok ([s0, s1, s2, s3, s4].take n) := by
  have hlen : ((unpack s0 s1 s2 s3 s4).take k).length = k := by
    rw [List.length_take, unpack_length]
    omega
  have hlt : ∀ v ∈ (unpack s0 s1 s2 s3 s4).take k, v < 32 :=
    fun v hv => unpack_lt s0 s1 s2 s3 s4 v (List.mem_of_mem_take hv)
  rw [← List.map_take, base32DecodeLoop_short _ (by omega) hlt, hlen,
    pack_take _ (unpack_length _ _ _ _ _) k hk, pack_unpack s0 s1 s2 s3 s4 k n hn]

/-- Base32 decoding undoes Base32 encoding. -/
theorem base32DecodeLoop_encode (data : List Byte) :
    base32DecodeLoop (base32Encode data) = .ok data := by
  induction data using base32Encode.induct with
  | case1 s0 s1 s2 s3 s4 rest ih =>
    rw [base32Encode, base32DecodeLoop_full _ (unpack_length _ _ _ _ _)
      (unpack_lt s0 s1 s2 s3 s4), ih, pack_unpack s0 s1 s2 s3 s4 8 5 rfl]
    rfl
  | case2 s0 s1 s2 s3 =>
    rw [base32Encode, base32DecodeLoop_last s0 s1 s2 s3 0 7 4 (by simp) rfl]
    rfl
  | case3 s0 s1 s2 =>
    rw [base32Encode, base32DecodeLoop_last s0 s1 s2 0 0 5 3 (by simp) rfl]
    rfl
  | case4 s0 s1 =>
    rw [base32Encode, base32DecodeLoop_last s0 s1 0 0 0 4 2 (by simp) rfl]
    rfl
  | case5 s0 =>
    rw [base32Encode, base32DecodeLoop_last s0 0 0 0 0 2 1 (by simp) rfl]
    rfl
  | case6 => rfl

theorem base32Encode_chars (data : List Byte) :
    ∀ c ∈ base32Encode data, ∃ v, c = encodeChar v := by
  induction data using base32Encode.induct with
  | case1 s0 s1 s2 s3 s4 rest ih =>
    intro c hc
    rw [base32Encode, List.mem_append] at hc
    rcases hc with hc | hc
    · obtain ⟨v, _, hv⟩ := List.mem_map.mp hc
      exact ⟨v, hv.symm⟩
    · exact ih c hc
  | case2 s0 s1 s2 s3 =>
    intro c hc
    rw [base32Encode] at hc
    obtain ⟨v, _, hv⟩ := List.mem_map.mp (List.mem_of_mem_take hc)
    exact ⟨v, hv.symm⟩
  | case3 s0 s1 s2 =>
    intro c hc
    rw [base32Encode] at hc
    obtain ⟨v, _, hv⟩ := List.mem_map.mp (List.mem_of_mem_take hc)
    exact ⟨v, hv.symm⟩
  | case4 s0 s1 =>
    intro c hc
    rw [base32Encode] at hc
    obtain ⟨v, _, hv⟩ := List.mem_map.mp (List.mem_of_mem_take hc)
    exact ⟨v, hv.symm⟩
  | case5 s0 =>
    intro c hc
    rw [base32Encode] at hc
    obtain ⟨v, _, hv⟩ := List.mem_map.mp (List.mem_of_mem_take hc)
    exact ⟨v, hv.symm⟩
  | case6 =>
    intro c hc
    simp [base32Encode] at hc

theorem base32DecodeString_encode (data : List Byte) :
    base32DecodeString (base32Encode data) = .ok data := by
  have hf : (base32Encode data).filter (fun c => c.val != 13 && c.val != 10)
      = base32Encode data := by
    rw [List.filter_eq_self]
    intro c hc
    obtain ⟨v, rfl⟩ := base32Encode_chars data c hc
    exact encodeChar_not_newline v
  rw [base32DecodeString, hf, base32DecodeLoop_encode]

theorem base32Encode_length_pos (data : List Byte) (h : data ≠ []) :
    0 < (base32Encode data).length := by
  match data, h with
  | [s0], _ => simp [base32Encode, unpack]
  | [s0, s1], _ => simp [base32Encode, unpack]
  | [s0, s1, s2], _ => simp [base32Encode, unpack]
  | [s0, s1, s2, s3], _ => simp [base32Encode, unpack]
  | s0 :: s1 :: s2 :: s3 :: s4 :: rest, _ => simp [base32Encode, unpack]

theorem mbaseDecode_encode (mb : OtherBases) (data : List Byte) :
    mbaseDecode mb (Fin.ofNat Base32 :: base32Encode data) = (Base32, data, none) := by
  have hb : ((Fin.ofNat Base32 : Byte).val = Base32 ∨ (Fin.ofNat Base32 : Byte).val = Base32Upper) :=
    Or.inl rfl
  simp only [mbaseDecode, hb, if_true, base32DecodeString_encode]
  rfl

theorem Version_of_valid (id : ID) (h : ID.Validate id = none) :
    ID.Version id = some Version1 := by
  obtain ⟨hn, hv, _⟩ := validateIDData_eq_none id h
  have hu := uvError_pos _ hn
  simp only [ID.Version, ID.Bytes, getVersion, hu, hv]

theorem String_of_valid (mb : OtherBases) (id : ID) (h : ID.Validate id = none) :
    ID.String mb id = some (Fin.ofNat Base32 :: base32Encode id) := by
  simp only [ID.String, ID.MustValidate, h, Version_of_valid id h, mbaseEncode, if_true]

theorem valid_ne_nil (id : ID) (h : ID.Validate id = none) : id ≠ [] := by
  rintro rfl
  revert h
  decide

theorem Decode_String_of_valid (mb : OtherBases) (id : ID) (h : ID.Validate id = none) :
    ∃ s, ID.String mb id = some s ∧ Decode mb s = (id, none) := by
  refine ⟨_, String_of_valid mb id h, ?_⟩
  have hlen : ¬ ((Fin.ofNat Base32 :: base32Encode id : List Byte).length < 2) := by
    have := base32Encode_length_pos id (valid_ne_nil id h)
    simp only [List.length_cons]
    omega
  have hc : Cast id = (id, none) := by
    have h' : validateIDData id = none := h
    simp only [Cast, h']
  simp only [Decode, hlen, if_false]
  rw [mbaseDecode_encode]
  exact hc

theorem NewRandomIDV1_valid (r : Nat → Byte) :
    ID.Validate ((1 : Byte) :: 0x55 :: (List.range randomVariantSize).map r) = none := by
  have hU1 : IsUvarint [1] := ⟨[], 1, rfl, by simp, by decide, by decide, by decide⟩
  have hU2 : IsUvarint [0x55] := ⟨[], 0x55, rfl, by simp, by decide, by decide, by decide⟩
  have := validateIDData_split [1] [0x55] ((List.range randomVariantSize).map r) hU1 hU2
  simp only [List.singleton_append, List.cons_append, List.nil_append] at this
  have v1 : varintValue [1] = Version1 := rfl
  have v2 : varintValue [0x55] = RandomVariant := rfl
  rw [ID.Validate, ID.Bytes, this, if_neg (by simp [v1]), if_neg (by simp [v2]),
    if_neg (by simp [randomVariantSize])]

/-! ## Lemmas on the failures of `binary.Uvarint` -/

theorem uvarintLoop_cutOff (bs : List Byte) :
    ∀ (i x s : Nat), (∀ b ∈ bs, 0x80 ≤ b.val) → i + bs.length ≤ 10 →
      uvarintLoop bs i x s = (0, 0) := by
  induction bs with
  | nil => intro i x s _ _; rfl
  | cons b bs ih =>
    intro i x s hb hlen
    simp only [List.length_cons] at hlen
    have h1 : ¬ (i = MaxVarintLen64) := by simp only [MaxVarintLen64]; omega
    have h2 : ¬ (b.val < 0x80) := by
      have := hb b (List.mem_cons_self _ _)
      omega
    simp only [uvarintLoop, h1, h2, if_false]
    exact ih (i + 1) _ _ (fun c hc => hb c (List.mem_cons_of_mem _ hc)) (by omega)

theorem uvarintLoop_tooBig (init : List Byte) (last : Byte) (rest : List Byte) :
    ∀ (i x s : Nat), (∀ b ∈ init, 0x80 ≤ b.val) → last.val < 0x80 → i ≤ 10 →
      ((i + init.length = 9 ∧ 1 < last.val) ∨ 10 ≤ i + init.length) →
      (uvarintLoop (init ++ last :: rest) i x s).2 < 0 := by
  induction init with
  | nil =>
    intro i x s _ hlast hi h
    simp only [List.length_nil, Nat.add_zero] at h
    simp only [List.nil_append, uvarintLoop, MaxVarintLen64]
    by_cases h10 : i = 10
    · simp only [h10, if_true]
      omega
    · have h9 : i = 9 ∧ 1 < last.val := by omega
      obtain ⟨rfl, hl⟩ := h9
      rw [if_neg (by decide), if_pos hlast, if_pos ⟨rfl, hl⟩]
      decide
  | cons b init ih =>
    intro i x s hb hlast hi h
    simp only [List.length_cons] at h
    simp only [List.cons_append, uvarintLoop, MaxVarintLen64]
    by_cases h10 : i = 10
    · simp only [h10, if_true]
      omega
    · have h2 : ¬ (b.val < 0x80) := by
        have := hb b (List.mem_cons_self _ _)
        omega
      simp only [h10, if_false, h2]
      exact ih (i + 1) _ _ (fun c hc => hb c (List.mem_cons_of_mem _ hc)) hlast (by omega)
        (by omega)

theorem Uvarint_cutOff (bs : List Byte) (h : IsCutOffVarint bs) : Uvarint bs = (0, 0) :=
  uvarintLoop_cutOff bs 0 0 0 h.1 (by have := h.2; simp only [MaxVarintLen64] at this; omega)

theorem Uvarint_tooBig (bs rest : List Byte) (h : IsTooBigVarint bs) :
    (Uvarint (bs ++ rest)).2 < 0 := by
  obtain ⟨init, last, rfl, hinit, hlast, hlen⟩ := h
  simp only [MaxVarintLen64] at hlen
  have := uvarintLoop_tooBig init last rest 0 0 0 hinit hlast (by omega) (by omega)
  simpa [Uvarint] using this

theorem uvarintLoop_overlong (init : List Byte) (next : Byte) (rest : List Byte) :
    ∀ (i x s : Nat), (∀ b ∈ init, 0x80 ≤ b.val) → i + init.length = 10 →
      (uvarintLoop (init ++ next :: rest) i x s).2 < 0 := by
  induction init with
  | nil =>
    intro i x s _ hi
    simp only [List.length_nil, Nat.add_zero] at hi
    subst hi
    simp only [List.nil_append, uvarintLoop, MaxVarintLen64, if_true]
    decide
  | cons b init ih =>
    intro i x s hb hi
    simp only [List.length_cons] at hi
    have h10 : ¬ (i = MaxVarintLen64) := by simp only [MaxVarintLen64]; omega
    have h2 : ¬ (b.val < 0x80) := by
      have := hb b (List.mem_cons_self _ _)
      omega
    simp only [List.cons_append, uvarintLoop, h10, if_false, h2]
    exact ih (i + 1) _ _ (fun c hc => hb c (List.mem_cons_of_mem _ hc)) (by omega)

theorem Uvarint_overlong (bs : List Byte) (h : IsOverlongVarint bs) :
    (Uvarint bs).2 < 0 := by
  obtain ⟨init, next, rest, rfl, hinit, hlen⟩ := h
  simp only [MaxVarintLen64] at hlen
  exact uvarintLoop_overlong init next rest 0 0 0 hinit (by omega)

theorem IsUnterminated.cutOff_or_overlong (bs : List Byte) (h : IsUnterminated bs) :
    (bs.length ≤ 10 → IsCutOffVarint bs) ∧ (10 < bs.length → IsOverlongVarint bs) := by
  constructor
  · intro hl
    exact ⟨h, hl⟩
  · intro hl
    cases hd : bs.drop 10 with
    | nil =>
      have := congrArg List.length hd
      simp only [List.length_drop, List.length_nil] at this
      omega
    | cons next rest =>
      refine ⟨bs.take 10, next, rest, ?_, ?_, ?_⟩
      · rw [← hd, List.take_append_drop]
      · intro b hb
        exact h b (List.mem_of_mem_take hb)
      · simp only [List.length_take, MaxVarintLen64]
        omega

theorem uvError_zero : uvError 0 = some Error.ErrVarintBuffSmall := rfl

theorem uvError_neg (n : Int) (h : n < 0) : uvError n = some Error.ErrVarintTooBig := by
  simp only [uvError]
  rw [if_neg (by omega), if_pos h]

theorem validateIDData_version_fail (data : List Byte) (e : Error)
    (h : uvError (Uvarint data).2 = some e) : validateIDData data = some e := by
  simp only [validateIDData, getVersion, h]

theorem validateIDData_variant_fail (v1 rest : List Byte) (e : Error) (h1 : IsUvarint v1)
    (hv : varintValue v1 = 1) (h : uvError (Uvarint rest).2 = some e) :
    validateIDData (v1 ++ rest) = some e := by
  have e1 := Uvarint_of_isUvarint v1 rest h1
  have u1 : uvError (v1.length : Int) = none :=
    uvError_pos _ (by have := h1.length_pos; omega)
  have hv' : ¬ (varintValue v1 ≠ Version1) := by simp [hv, Version1]
  simp only [validateIDData, getVersion, e1, u1, Int.toNat_ofNat, List.drop_left, h]
  rw [if_neg hv']

theorem uvarintLoop_le (bs : List Byte) :
    ∀ (i x s : Nat), (uvarintLoop bs i x s).2 ≤ ((i + bs.length : Nat) : Int) := by
  induction bs with
  | nil => intro i x s; simp [uvarintLoop]
  | cons b bs ih =>
    intro i x s
    simp only [uvarintLoop, List.length_cons]
    split
    · simp only; omega
    · split
      · split
        · simp only; omega
        · simp only; omega
      · have := ih (i + 1) (x ||| ((b.val &&& 0x7f) <<< s) % 2 ^ 64) (s + 7)
        omega

theorem Version_eq (id : ID) :
    (ID.Version id = none ↔ (Uvarint (ID.Bytes id)).2 ≤ 0) ∧
    (0 < (Uvarint (ID.Bytes id)).2 → ID.Version id = some (Uvarint (ID.Bytes id)).1) := by
  by_cases h : 0 < (Uvarint (ID.Bytes id)).2
  · have hu := uvError_pos _ h
    simp only [ID.Version, getVersion, hu]
    simp
    omega
  · have hu : ∃ e, uvError (Uvarint (ID.Bytes id)).2 = some e := by
      by_cases h0 : (Uvarint (ID.Bytes id)).2 = 0
      · exact ⟨_, by rw [h0]; rfl⟩
      · exact ⟨_, uvError_neg _ (by omega)⟩
    obtain ⟨e, he⟩ := hu
    simp only [ID.Version, getVersion, he]
    simp
    omega

theorem Variant_eq_none_iff (id : ID) : ID.Variant id = none ↔ (uvarint id).2 < 0 := by
  have hle := uvarintLoop_le id 0 0 0
  simp only [Nat.zero_add] at hle
  have hle' : (uvarint id).2 ≤ (id.length : Int) := hle
  simp only [ID.Variant]
  by_cases h : (uvarint id).2 < 0
  · simp [h]
  · have h2 : ¬ ((uvarint id).2 < 0 ∨ (uvarint id).2 > (id.length : Int)) := by omega
    simp [h]
    exact hle'

theorem MustValidate_invalid (id : ID) (h : ID.Validate id ≠ none) :
    ID.MustValidate id = none := by
  cases hv : ID.Validate id with
  | none => exact absurd hv h
  | some e => simp only [ID.MustValidate, hv]

/-! ## Lemmas on `Decode`, `ExtractEncoding` and `StringOfBase` -/

theorem ExtractEncoding_cons (mb : OtherBases) (c : Byte) (rest : List Byte)
    (hl : ¬ (c :: rest).length < 2) (h : mbaseNewEncoder mb c.val = none) :
    ExtractEncoding mb (c :: rest) = ((c.val : Int), none) := by
  simp only [ExtractEncoding, hl, if_false, List.headD_cons, h]

theorem validateIDData_newID (t : Byte) (ht : t.val < 0x80)
    (hvar : t.val = RandomVariant ∨ t.val = PubKeyVariant) (p : List Byte) :
    ID.Validate ((1 : Byte) :: t :: p) = none ↔ p ≠ [] := by
  have hU1 : IsUvarint [1] := ⟨[], 1, rfl, by simp, by decide, by decide, by decide⟩
  have hU2 : IsUvarint [t] :=
    ⟨[], t, rfl, by simp, ht, by decide, fun h => absurd h (by decide)⟩
  have hs := validateIDData_split [1] [t] p hU1 hU2
  simp only [List.singleton_append, List.cons_append, List.nil_append] at hs
  have v1 : varintValue [1] = Version1 := rfl
  have v2 : varintValue [t] = t.val := by
    simp only [varintValue]
    omega
  have hv : ¬ (varintValue [t] ≠ RandomVariant ∧ varintValue [t] ≠ PubKeyVariant) := by
    rw [v2]
    rintro ⟨a, b⟩
    rcases hvar with h | h
    · exact a h
    · exact b h
  rw [ID.Validate, ID.Bytes, hs, if_neg (by simp [v1]), if_neg hv]
  by_cases hp : p = []
  · subst hp
    simp
  · have : ¬ p.length = 0 := fun h => hp (List.length_eq_zero.mp h)
    simp [this, hp]

/-! ## Lemmas on `ToAddr` and `FromAddr` -/

theorem trimRightSlash_cons_ne (c : Byte) (rest : List Byte) (hc : c.val ≠ 0x2f) :
    trimRightSlash (c :: rest) = c :: trimRightSlash rest := by
  simp only [trimRightSlash]
  cases trimRightSlash rest with
  | nil => simp [hc]
  | cons t ts => rfl

theorem trimRightSlash_cons_of_ne_nil (c : Byte) (rest : List Byte)
    (h : trimRightSlash rest ≠ []) :
    trimRightSlash (c :: rest) = c :: trimRightSlash rest := by
  simp only [trimRightSlash]
  cases ht : trimRightSlash rest with
  | nil => exact absurd ht h
  | cons t ts => rfl

theorem splitSlash_ne_nil (s : List Byte) : ∃ piece pieces, splitSlash s = piece :: pieces := by
  induction s with
  | nil => exact ⟨[], [], rfl⟩
  | cons c rest ih =>
    obtain ⟨p, ps, h⟩ := ih
    simp only [splitSlash, h]
    split
    · exact ⟨_, _, rfl⟩
    · exact ⟨_, _, rfl⟩

theorem splitSlash_cons_ne (c : Byte) (rest piece : List Byte) (pieces : List (List Byte))
    (hc : c.val ≠ 0x2f) (h : splitSlash rest = piece :: pieces) :
    splitSlash (c :: rest) = (c :: piece) :: pieces := by
  simp only [splitSlash, hc, if_false, h]

theorem splitSlash_cons_slash (rest : List Byte) :
    splitSlash ((0x2f : Byte) :: rest) = [] :: splitSlash rest := by
  rw [splitSlash, if_pos (by decide)]

/-- The text that `ToAddr` hands to `NewMultiaddr` splits into the protocol name and a
value that begins with a space. -/
theorem splitSlash_ToAddr (id : ID) :
    ∃ piece pieces,
      splitSlash (trimRightSlash ([0x2f] ++ ProtocolName ++ [0x2f, 0x20] ++ id))
        = [] :: ProtocolName :: ((0x20 : Byte) :: piece) :: pieces := by
  obtain ⟨piece, pieces, hs⟩ := splitSlash_ne_nil (trimRightSlash id)
  refine ⟨piece, pieces, ?_⟩
  have t1 : trimRightSlash ((0x20 : Byte) :: id) = (0x20 : Byte) :: trimRightSlash id :=
    trimRightSlash_cons_ne _ _ (by decide)
  have t2 : trimRightSlash ([0x2f] ++ ProtocolName ++ [0x2f, 0x20] ++ id)
      = [0x2f] ++ ProtocolName ++ [0x2f, 0x20] ++ trimRightSlash id := by
    simp only [ProtocolName, List.cons_append, List.nil_append, List.singleton_append]
    rw [trimRightSlash_cons_of_ne_nil, trimRightSlash_cons_ne _ _ (by decide),
      trimRightSlash_cons_ne _ _ (by decide), trimRightSlash_cons_ne _ _ (by decide),
      trimRightSlash_cons_ne _ _ (by decide), trimRightSlash_cons_ne _ _ (by decide),
      trimRightSlash_cons_ne _ _ (by decide), trimRightSlash_cons_of_ne_nil, t1]
    · rw [t1]; simp
    · rw [trimRightSlash_cons_ne _ _ (by decide)]; simp
  rw [t2]
  simp only [ProtocolName, List.cons_append, List.nil_append, List.singleton_append]
  have s1 := splitSlash_cons_ne 0x20 _ _ _ (by decide) hs
  have s2 := splitSlash_cons_slash (0x20 :: trimRightSlash id)
  rw [s1] at s2
  have s3 := splitSlash_cons_ne 100 _ _ _ (by decide) s2
  have s4 := splitSlash_cons_ne 97 _ _ _ (by decide) s3
  have s5 := splitSlash_cons_ne 101 _ _ _ (by decide) s4
  have s6 := splitSlash_cons_ne 114 _ _ _ (by decide) s5
  have s7 := splitSlash_cons_ne 104 _ _ _ (by decide) s6
  have s8 := splitSlash_cons_ne 116 _ _ _ (by decide) s7
  rw [splitSlash_cons_slash, s8]

theorem Decode_space (mb : OtherBases) (rest : List Byte)
    (h : ∀ r, ∃ e, mb.decode 0x20 r = .error e) :
    ∃ e, Decode mb ((0x20 : Byte) :: rest) = (Undef, some e) := by
  by_cases hl : ((0x20 : Byte) :: rest).length < 2
  · exact ⟨Error.ErrIDTooShort, by simp only [Decode, hl, if_true]⟩
  · obtain ⟨e, he⟩ := h rest
    refine ⟨e, ?_⟩
    have hb : ¬ (((0x20 : Byte)).val = Base32 ∨ ((0x20 : Byte)).val = Base32Upper) := by
      decide
    simp only [Decode, hl, if_false, mbaseDecode, hb, he]

theorem NewMultiaddr_ToAddr (mb : OtherBases) (others : List Byte → Option Protocol)
    (id : ID) (h : ∀ r, ∃ e, mb.decode 0x20 r = .error e) :
    ∃ e, NewMultiaddr mb others ([0x2f] ++ ProtocolName ++ [0x2f, 0x20] ++ id) = .error e := by
  obtain ⟨piece, pieces, hs⟩ := splitSlash_ToAddr id
  obtain ⟨e, he⟩ := Decode_space mb piece h
  refine ⟨e, ?_⟩
  simp only [NewMultiaddr, hs]
  simp [parseComponents, ProtocolWithName, threadProtocol, he]

theorem trimRightSlash_of_no_slash (l : List Byte) (h : ∀ c ∈ l, c.val ≠ 0x2f) :
    trimRightSlash l = l := by
  induction l with
  | nil => rfl
  | cons c rest ih =>
    rw [trimRightSlash_cons_ne c rest (h c (List.mem_cons_self _ _)),
      ih (fun d hd => h d (List.mem_cons_of_mem _ hd))]

theorem trimRightSlash_append_no_slash (pre l : List Byte) (h : ∀ c ∈ l, c.val ≠ 0x2f)
    (hne : l ≠ []) : trimRightSlash (pre ++ l) = pre ++ l := by
  induction pre with
  | nil => exact trimRightSlash_of_no_slash l h
  | cons c pre ih =>
    rw [List.cons_append, trimRightSlash_cons_of_ne_nil c _ (by rw [ih]; simp [hne]), ih]

theorem splitSlash_of_no_slash (l : List Byte) (h : ∀ c ∈ l, c.val ≠ 0x2f) :
    splitSlash l = [l] := by
  induction l with
  | nil => rfl
  | cons c rest ih =>
    exact splitSlash_cons_ne c rest rest [] (h c (List.mem_cons_self _ _))
      (ih (fun d hd => h d (List.mem_cons_of_mem _ hd)))

theorem encodeChar_not_slash (v : Nat) : (encodeChar v).val ≠ 0x2f := by
  have h : v &&& 31 < 32 := by rw [and_31]; omega
  simp only [encodeChar]
  generalize v &&& 31 = w at h
  interval_cases w <;> decide

theorem String_no_slash (id : ID) :
    ∀ c ∈ (Fin.ofNat Base32 : Byte) :: base32Encode id, c.val ≠ 0x2f := by
  intro c hc
  rcases List.mem_cons.mp hc with rfl | hc
  · decide
  · obtain ⟨v, rfl⟩ := base32Encode_chars id c hc
    exact encodeChar_not_slash v

/-- The address text `"/" + ProtocolName + "/" + id.String()` of a valid identifier is
accepted by `NewMultiaddr`, and `FromAddr` reads the identifier back from the
address. -/
theorem FromAddr_addrText (mb : OtherBases) (others : List Byte → Option Protocol)
    (id : ID) (h : ID.Validate id = none) :
    ∃ text addr, addrText mb id = some text ∧ NewMultiaddr mb others text = .ok addr ∧
      FromAddr mb addr = (id, none) := by
  have hs := String_of_valid mb id h
  obtain ⟨s0, hs0, hd⟩ := Decode_String_of_valid mb id h
  rw [hs] at hs0
  have hs0' := Option.some.inj hs0
  subst hs0'
  have hno := String_no_slash id
  have hc : Cast id = (id, none) := by
    have h' : validateIDData id = none := h
    simp only [Cast, h']
  refine ⟨[0x2f] ++ ProtocolName ++ [0x2f] ++ ((Fin.ofNat Base32 : Byte) :: base32Encode id),
    [(threadProtocol mb, id)], by simp only [addrText, hs], ?_, ?_⟩
  · have t : trimRightSlash ([0x2f] ++ ProtocolName ++ [0x2f]
        ++ ((Fin.ofNat Base32 : Byte) :: base32Encode id))
        = [0x2f] ++ ProtocolName ++ [0x2f]
          ++ ((Fin.ofNat Base32 : Byte) :: base32Encode id) :=
      trimRightSlash_append_no_slash _ _ hno (by simp)
    have s1 := splitSlash_of_no_slash _ hno
    have s2 := splitSlash_cons_slash ((Fin.ofNat Base32 : Byte) :: base32Encode id)
    rw [s1] at s2
    have s3 := splitSlash_cons_ne 100 _ _ _ (by decide) s2
    have s4 := splitSlash_cons_ne 97 _ _ _ (by decide) s3
    have s5 := splitSlash_cons_ne 101 _ _ _ (by decide) s4
    have s6 := splitSlash_cons_ne 114 _ _ _ (by decide) s5
    have s7 := splitSlash_cons_ne 104 _ _ _ (by decide) s6
    have s8 := splitSlash_cons_ne 116 _ _ _ (by decide) s7
    have s9 := splitSlash_cons_slash (116 :: 104 :: 114 :: 101 :: 97 :: 100 :: 0x2f ::
      (Fin.ofNat Base32 : Byte) :: base32Encode id)
    rw [s8] at s9
    simp only [NewMultiaddr, t]
    simp only [ProtocolName, List.cons_append, List.nil_append, List.singleton_append, s9]
    simp [parseComponents, ProtocolWithName, threadProtocol, ProtocolName, hd, ID.Bytes]
  · simp only [FromAddr, ValueForProtocol, threadProtocol, if_true, hc, hs]
    exact hd

/-! ## Lemmas on the database manager -/

theorem findDB_removeDB (id : ID) (l : List (ID × Database)) :
    findDB id (removeDB id l) = none := by
  induction l with
  | nil => rfl
  | cons e rest ih =>
    obtain ⟨k, d⟩ := e
    by_cases h : k = id
    · simp only [removeDB, h, if_true, ih]
    · simp only [removeDB, h, if_false, findDB, ih]

theorem GetDB_not_found (m : Manager) (id : ID) (hr : findDB id m.registry = none)
    (hs : findDB id m.store = none) :
    GetDB m id = (m, .error ManagerError.ErrThreadNotFound) := by
  simp only [GetDB, hr, hs]

/-! ## The claims -/

/-- C1: for every identifier whose bytes pass `Validate`, `String()` returns (without
panic) a string on which `Decode` returns the identifier and no error; in particular
this holds for every identifier built by `NewRandomIDV1` from 38 random bytes. -/
theorem Decode_String_roundtrip (mb : OtherBases) (id : ID) (r : Nat → Byte)
    (h : ID.Validate id = none) :
    (∃ s, ID.String mb id = some s ∧ Decode mb s = (id, none)) ∧
    (∃ rid s, NewRandomIDV1 (some r) = some rid ∧ ID.Validate rid = none ∧
      ID.String mb rid = some s ∧ Decode mb s = (rid, none)) := by
  refine ⟨Decode_String_of_valid mb id h, ?_⟩
  obtain ⟨s, hs, hd⟩ := Decode_String_of_valid mb _ (NewRandomIDV1_valid r)
  exact ⟨_, s, NewRandomIDV1_eq r, NewRandomIDV1_valid r, hs, hd⟩

/-- C1 at the identifier with bytes `[1, 0x55, 7]`. -/
theorem Decode_String_roundtrip_witness :
    ID.Validate [1, 0x55, 7] = none ∧
    ∃ s, ID.String noOtherBases [1, 0x55, 7] = some s ∧
      Decode noOtherBases s = ([1, 0x55, 7], none) :=
  ⟨by decide, (Decode_String_roundtrip noOtherBases [1, 0x55, 7] (fun _ => 0) (by decide)).1⟩

/-- C2: for every byte sequence, `Cast` succeeds exactly when `validateIDData` returns
nil and then returns an identifier whose `Bytes()` is the input (on failure it returns
`Undef` with the validation error); hence `Cast(id.Bytes())` returns `id` and no error
for every identifier that passes `Validate`. -/
theorem Cast_iff_validateIDData (data : List Byte) :
    ((Cast data).2 = none ↔ validateIDData data = none) ∧
    (Cast data).2 = validateIDData data ∧
    (validateIDData data = none → ID.Bytes (Cast data).1 = data) ∧
    (ID.Validate data = none → Cast (ID.Bytes data) = (data, none)) := by
  cases h : validateIDData data with
  | none => simp [Cast, ID.Bytes, ID.Validate, h]
  | some e => simp [Cast, ID.Bytes, ID.Validate, h]

/-- C3: `Validate` returns nil exactly when the bytes of the identifier split as an
unsigned varint that decodes to 1, then an unsigned varint that decodes to 0x55
(random) or 0x70 (pubkey), then at least one payload byte. -/
theorem Validate_eq_none_iff (id : ID) :
    ID.Validate id = none ↔
      ∃ v1 v2 p, ID.Bytes id = v1 ++ v2 ++ p ∧
        IsUvarint v1 ∧ varintValue v1 = 1 ∧
        IsUvarint v2 ∧ (varintValue v2 = 0x55 ∨ varintValue v2 = 0x70) ∧
        p ≠ [] := by
  constructor
  · intro h
    obtain ⟨hn, hv, hcn, hvar, hp⟩ := validateIDData_eq_none id h
    obtain ⟨v1, rest, hd, hU1, hval1, hlen1⟩ := Uvarint_pos id (Uvarint id).1 (Uvarint id).2 rfl hn
    rw [hlen1, Int.toNat_ofNat] at hcn hvar
    rw [hlen1] at hp
    simp only [Int.toNat_ofNat] at hp
    have hdrop : List.drop v1.length id = rest := by rw [hd, List.drop_left]
    rw [hdrop] at hcn hvar hp
    obtain ⟨v2, p, hd2, hU2, hval2, hlen2⟩ := Uvarint_pos rest (Uvarint rest).1 (Uvarint rest).2 rfl hcn
    refine ⟨v1, v2, p, ?_, hU1, ?_, hU2, ?_, ?_⟩
    · simp only [ID.Bytes, hd, hd2, List.append_assoc]
    · rw [← hval1, hv]; rfl
    · rw [← hval2]; exact hvar
    · rw [hlen2] at hp
      have e : ((v1.length : Int) + (v2.length : Int)).toNat = (v1 ++ v2).length := by
        simp only [List.length_append]; omega
      have e2 : id = (v1 ++ v2) ++ p := by rw [hd, hd2, List.append_assoc]
      rw [e, e2, List.drop_left] at hp
      exact hp
  · rintro ⟨v1, v2, p, hd, hU1, hval1, hU2, hval2, hp⟩
    simp only [ID.Bytes] at hd
    have hp' : ¬ p.length = 0 := by
      intro h; exact hp (List.length_eq_zero.mp h)
    have hvar : ¬ (varintValue v2 ≠ RandomVariant ∧ varintValue v2 ≠ PubKeyVariant) := by
      rintro ⟨h1, h2⟩
      rcases hval2 with h | h
      · exact h1 h
      · exact h2 h
    rw [ID.Validate, ID.Bytes, hd, validateIDData_split v1 v2 p hU1 hU2,
      if_neg (by simp [hval1, Version1]), if_neg hvar, if_neg hp']

/-- C4: when the buffer starts with an unsigned varint `bs` that decodes to a value
other than 1, `Validate` fails with the unsupported-version error naming that value,
"expected 1 as the id version number, got: v", whatever bytes `rest` follow. -/
theorem Validate_unexpectedVersion (bs rest : List Byte) (h : IsUvarint bs)
    (hv : varintValue bs ≠ 1) :
    ID.Validate (bs ++ rest) = some (Error.unexpectedVersion (varintValue bs)) ∧
    (Error.unexpectedVersion (varintValue bs)).msg
      = "expected 1 as the id version number, got: " ++ toString (varintValue bs) := by
  refine ⟨?_, rfl⟩
  have e1 := Uvarint_of_isUvarint bs rest h
  have u1 : uvError (bs.length : Int) = none :=
    uvError_pos _ (by have := h.length_pos; omega)
  have hv' : varintValue bs ≠ Version1 := hv
  simp only [ID.Validate, ID.Bytes, validateIDData, getVersion, e1, u1]
  rw [if_pos hv']

/-- C4 at the inputs the claim lists: version 2 followed by a bad variant, by an
unparsable variant, and by nothing. -/
theorem Validate_unexpectedVersion_witness :
    (IsUvarint [2] ∧ varintValue [2] ≠ 1) ∧
    ID.Validate ([2] ++ [0x99, 0x01]) = some (Error.unexpectedVersion 2) ∧
    ID.Validate ([2] ++ [0x80]) = some (Error.unexpectedVersion 2) ∧
    ID.Validate ([2] ++ []) = some (Error.unexpectedVersion 2) :=
  have hU : IsUvarint [2] := ⟨[], 2, rfl, by simp, by decide, by decide, by decide⟩
  ⟨⟨hU, by decide⟩,
    (Validate_unexpectedVersion [2] [0x99, 0x01] hU (by decide)).1,
    (Validate_unexpectedVersion [2] [0x80] hU (by decide)).1,
    (Validate_unexpectedVersion [2] [] hU (by decide)).1⟩

/-- C5: when the buffer is exactly a version varint that decodes to 1 followed by a
variant varint that decodes to 0x55 or 0x70, with nothing after them, `Validate` fails
with the empty-payload error, "expected random id bytes but there are none". -/
theorem Validate_noPayload (v1 v2 : List Byte) (h1 : IsUvarint v1) (hv1 : varintValue v1 = 1)
    (h2 : IsUvarint v2) (hv2 : varintValue v2 = 0x55 ∨ varintValue v2 = 0x70) :
    ID.Validate (v1 ++ v2) = some Error.noPayload ∧
    Error.noPayload.msg = "expected random id bytes but there are none" := by
  refine ⟨?_, rfl⟩
  have hvar : ¬ (varintValue v2 ≠ RandomVariant ∧ varintValue v2 ≠ PubKeyVariant) := by
    rintro ⟨a, b⟩
    rcases hv2 with h | h
    · exact a h
    · exact b h
  have := validateIDData_split v1 v2 [] h1 h2
  rw [List.append_nil] at this
  rw [ID.Validate, ID.Bytes, this, if_neg (by simp [hv1, Version1]), if_neg hvar]
  rfl

/-- C5 at the bytes `[0x01, 0x55]`. -/
theorem Validate_noPayload_witness :
    (IsUvarint [1] ∧ varintValue [1] = 1 ∧ IsUvarint [0x55] ∧ varintValue [0x55] = 0x55) ∧
    ID.Validate ([0x01] ++ [0x55]) = some Error.noPayload :=
  have hU1 : IsUvarint [1] := ⟨[], 1, rfl, by simp, by decide, by decide, by decide⟩
  have hU2 : IsUvarint [0x55] := ⟨[], 0x55, rfl, by simp, by decide, by decide, by decide⟩
  ⟨⟨hU1, by decide, hU2, by decide⟩,
    (Validate_noPayload [1] [0x55] hU1 (by decide) hU2 (Or.inl (by decide))).1⟩

/-- C6: for every input string of length 0 or 1, `Decode` returns the undefined
identifier together with `ErrIDTooShort`, whatever the multibase decoder would do
with the string. -/
theorem Decode_too_short (mb : OtherBases) (v : List Byte) (h : v.length < 2) :
    Decode mb v = (Undef, some Error.ErrIDTooShort) := by
  simp only [Decode, h, if_true]

/-- C6 at the one-character string "b", which the multibase decoder alone would
accept. -/
theorem Decode_too_short_witness :
    ([0x62] : List Byte).length < 2 ∧
    Decode noOtherBases [0x62] = (Undef, some Error.ErrIDTooShort) ∧
    (mbaseDecode noOtherBases [0x62]).2.2 = none :=
  ⟨by decide, Decode_too_short noOtherBases [0x62] (by decide), by decide⟩

/-- C7: for every identifier produced by `NewRandomIDV1`, that is for every outcome
`r` of a successful read of the 38 random bytes, `Version()` returns `Version1`,
`Variant()` returns `RandomVariant` and `Defined()` returns true. -/
theorem NewRandomIDV1_accessors (r : Nat → Byte) :
    ∃ id, NewRandomIDV1 (some r) = some id ∧
      ID.Version id = some Version1 ∧
      ID.Variant id = some RandomVariant ∧
      ID.Defined id = true := by
  refine ⟨_, NewRandomIDV1_eq r, Version_cons_one _, ?_, rfl⟩
  exact Variant_cons_one 0x55 (by decide) _

/-- C8: for every public key whose `Hash()` succeeds with bytes `p`, `NewPubKeyIDV1`
returns an identifier whose `Variant()` is `PubKeyVariant` and whose `Version()` is
`Version1`. -/
theorem NewPubKeyIDV1_accessors (p : List Byte) :
    ∃ id, NewPubKeyIDV1 (.ok p) = some id ∧
      ID.Variant id = some PubKeyVariant ∧
      ID.Version id = some Version1 :=
  ⟨(1 : Byte) :: 0x70 :: p, NewPubKeyIDV1_eq p, Variant_cons_one 0x70 (by decide) p,
    Version_cons_one _⟩

/-- C9: for every version, variant (64-bit values) and payload, `newID` returns
without panic the bytes `uvarint(version) ++ uvarint(variant) ++ payload`, where the
two varints read back (with `binary.Uvarint`) as `version` and `variant`; every
identifier of `NewRandomIDV1` is the 40 bytes `[0x01, 0x55]` followed by its 38
payload bytes. -/
theorem newID_layout (version variant : Nat) (payload : List Byte) (r : Nat → Byte)
    (hv : version < 2 ^ 64) (hr : variant < 2 ^ 64) :
    newID version variant payload
      = some (uvarintBytes version ++ uvarintBytes variant ++ payload) ∧
    Uvarint (uvarintBytes version ++ (uvarintBytes variant ++ payload))
      = (version, ((uvarintBytes version).length : Int)) ∧
    Uvarint (uvarintBytes variant ++ payload)
      = (variant, ((uvarintBytes variant).length : Int)) ∧
    (∃ id, NewRandomIDV1 (some r) = some id ∧
      id = [0x01, 0x55] ++ (List.range 38).map r ∧ id.length = 40) := by
  refine ⟨newID_eq version variant payload hv hr, (Uvarint_uvarintBytes version hv _).2,
    (Uvarint_uvarintBytes variant hr _).2, _, NewRandomIDV1_eq r, rfl, ?_⟩
  simp [randomVariantSize]

/-- C9 at version 300, variant 2^64 - 1 and a three-byte payload. -/
theorem newID_layout_witness :
    (300 < 2 ^ 64 ∧ 2 ^ 64 - 1 < 2 ^ 64) ∧
    newID 300 (2 ^ 64 - 1) [1, 2, 3]
      = some (uvarintBytes 300 ++ uvarintBytes (2 ^ 64 - 1) ++ [1, 2, 3]) :=
  ⟨by decide,
    (newID_layout 300 (2 ^ 64 - 1) [1, 2, 3] (fun _ => 0) (by decide) (by decide)).1⟩

/-- C10: `IDSlice.Less` is a strict total order that coincides with the byte-wise
lexicographic order of the identifiers' bytes: for the identifiers `a`, `b`, `c` at
positions `i`, `j`, `k` of a slice, exactly one of `Less(i, j)`, `a.Equals(b)`,
`Less(j, i)` holds, `Less` is transitive, and `a.Equals(b)` holds exactly when
`a.Bytes()` equals `b.Bytes()`. -/
theorem IDSlice_Less_strict_total_order (s : IDSlice) (i j k : Nat) (a b c : ID)
    (ha : s.get? i = some a) (hb : s.get? j = some b) (hc : s.get? k = some c) :
    (IDSlice.Less s i j = some true ∨ ID.Equals a b = true ∨ IDSlice.Less s j i = some true) ∧
    ¬ (IDSlice.Less s i j = some true ∧ ID.Equals a b = true) ∧
    ¬ (IDSlice.Less s i j = some true ∧ IDSlice.Less s j i = some true) ∧
    ¬ (ID.Equals a b = true ∧ IDSlice.Less s j i = some true) ∧
    (IDSlice.Less s i j = some true → IDSlice.Less s j k = some true →
      IDSlice.Less s i k = some true) ∧
    (ID.Equals a b = true ↔ ID.Bytes a = ID.Bytes b) ∧
    (IDSlice.Less s i j = some true ↔ List.Lex (· < ·) (ID.Bytes a) (ID.Bytes b)) := by
  rw [Less_eq s i j a b ha hb, Less_eq s j i b a hb ha, Less_eq s j k b c hb hc,
    Less_eq s i k a c ha hc]
  simp only [Option.some.injEq, ID.Equals, ID.Bytes, beq_iff_eq]
  refine ⟨stringLess_total a b, ?_, ?_, ?_, stringLess_trans a b c, trivial,
    stringLess_iff_lex a b⟩
  · rintro ⟨h1, rfl⟩
    rw [stringLess_irrefl] at h1
    exact Bool.false_ne_true h1
  · rintro ⟨h1, h2⟩
    rw [stringLess_asymm a b h1] at h2
    exact Bool.false_ne_true h2
  · rintro ⟨rfl, h2⟩
    rw [stringLess_irrefl] at h2
    exact Bool.false_ne_true h2

/-- C10 at the slice `[[1, 85, 7], [1, 85, 7, 0], [1, 112, 0]]` and the positions
0, 1, 2. -/
theorem IDSlice_Less_strict_total_order_witness :
    (([[1, 85, 7], [1, 85, 7, 0], [1, 112, 0]] : IDSlice).get? 0 = some [1, 85, 7] ∧
      ([[1, 85, 7], [1, 85, 7, 0], [1, 112, 0]] : IDSlice).get? 1 = some [1, 85, 7, 0] ∧
      ([[1, 85, 7], [1, 85, 7, 0], [1, 112, 0]] : IDSlice).get? 2 = some [1, 112, 0]) ∧
    IDSlice.Less [[1, 85, 7], [1, 85, 7, 0], [1, 112, 0]] 0 1 = some true ∧
    IDSlice.Less [[1, 85, 7], [1, 85, 7, 0], [1, 112, 0]] 1 2 = some true ∧
    IDSlice.Less [[1, 85, 7], [1, 85, 7, 0], [1, 112, 0]] 0 2 = some true ∧
    IDSlice.Less [[1, 85, 7], [1, 85, 7, 0], [1, 112, 0]] 1 0 ≠ some true :=
  have h := IDSlice_Less_strict_total_order [[1, 85, 7], [1, 85, 7, 0], [1, 112, 0]] 0 1 2
    [1, 85, 7] [1, 85, 7, 0] [1, 112, 0] rfl rfl rfl
  ⟨⟨rfl, rfl, rfl⟩, by decide, by decide, h.2.2.2.2.1 (by decide) (by decide),
    fun h' => h.2.2.1 ⟨by decide, h'⟩⟩

/-- C11: the address text that `ToAddr` builds is never accepted: for every identifier
(valid or not), `NewMultiaddr` fails on `"/" + ProtocolName + "/ " + string(id)`,
whose thread component is a space followed by the raw bytes and not the text form
that `FromAddr` decodes, so `ToAddr` panics; the multibase package is taken to have
no encoding with the space character as its tag. -/
theorem ToAddr_panics (mb : OtherBases) (others : List Byte → Option Protocol) (id : ID)
    (h : ∀ r, ∃ e, mb.decode 0x20 r = .error e) :
    ToAddr mb others id = none := by
  obtain ⟨e, he⟩ := NewMultiaddr_ToAddr mb others id h
  simp only [ToAddr, he]

/-- C11 at the valid identifier `[1, 0x55, 7]`, for which the address text
"/thread/bafkqo" would be read back by `FromAddr`. -/
theorem ToAddr_panics_witness :
    (∀ r, ∃ e, noOtherBases.decode 0x20 r = .error e) ∧
    ID.Validate [1, 0x55, 7] = none ∧
    ToAddr noOtherBases noOtherProtocols [1, 0x55, 7] = none :=
  ⟨fun _ => ⟨_, rfl⟩, by decide,
    ToAddr_panics noOtherBases noOtherProtocols [1, 0x55, 7] (fun _ => ⟨_, rfl⟩)⟩

/-- C13: for every string `v`, if `Decode(v)` returns no error then `ExtractEncoding(v)`
returns no error either, and the encoding it returns is the first byte of `v`, the
tag `mbase.Decode` reports; the multibase package is taken to list in `EncodingToStr`
every encoding that its `Decode` accepts. -/
theorem ExtractEncoding_of_Decode (mb : OtherBases) (v : List Byte)
    (hmb : ∀ tag rest bytes, mb.decode tag rest = .ok bytes → mb.known tag.val = true)
    (h : (Decode mb v).2 = none) :
    ∃ c rest, v = c :: rest ∧
      ExtractEncoding mb v = ((c.val : Int), none) ∧
      (mbaseDecode mb v).1 = c.val := by
  simp only [Decode] at h
  by_cases hl : v.length < 2
  · simp [hl] at h
  · simp only [hl, if_false] at h
    match v, hl with
    | c :: rest, hl =>
      refine ⟨c, rest, rfl, ?_, ?_⟩
      · apply ExtractEncoding_cons mb c rest hl
        simp only [mbaseNewEncoder]
        by_cases hb : c.val = Base32 ∨ c.val = Base32Upper
        · simp [hb]
        · simp only [hb, if_false]
          simp only [mbaseDecode, hb, if_false] at h
          cases hdec : mb.decode c rest with
          | error e => simp [hdec] at h
          | ok bytes => simp [hmb c rest bytes hdec]
      · simp only [mbaseDecode]
        split <;> split <;> rfl

/-- C13 at the text "bafkqo" of the identifier `[1, 0x55, 7]`. -/
theorem ExtractEncoding_of_Decode_witness :
    (Decode noOtherBases [0x62, 97, 102, 107, 113, 111]).2 = none ∧
    ∃ c rest, ([0x62, 97, 102, 107, 113, 111] : List Byte) = c :: rest ∧
      ExtractEncoding noOtherBases [0x62, 97, 102, 107, 113, 111] = ((c.val : Int), none) ∧
      (mbaseDecode noOtherBases [0x62, 97, 102, 107, 113, 111]).1 = c.val :=
  ⟨by decide, ExtractEncoding_of_Decode noOtherBases [0x62, 97, 102, 107, 113, 111]
    (fun _ _ _ h => by simp [noOtherBases] at h) (by decide)⟩

/-- C14, as amended: `Validate` and `Cast` return `ErrVarintBuffSmall` when the version
varint, or the variant varint after a version of 1, is cut off by the end of the
bytes within the ten bytes of a 64-bit varint, and `ErrVarintTooBig` when that varint
is a complete varint of a value that does not fit in 64 bits or runs to more than ten
bytes, cut off or not: a cut-off varint of at most ten bytes gives
`ErrVarintBuffSmall`, one of more than ten bytes gives `ErrVarintTooBig`; the two
errors are distinct and never both returned for one input. -/
theorem Validate_varint_errors (cut big long v1 rest : List Byte)
    (hc : IsCutOffVarint cut) (hb : IsTooBigVarint big) (hl : IsOverlongVarint long)
    (h1 : IsUvarint v1) (hv1 : varintValue v1 = 1) :
    ID.Validate cut = some Error.ErrVarintBuffSmall ∧
    ID.Validate (v1 ++ cut) = some Error.ErrVarintBuffSmall ∧
    ID.Validate (big ++ rest) = some Error.ErrVarintTooBig ∧
    ID.Validate (v1 ++ (big ++ rest)) = some Error.ErrVarintTooBig ∧
    ID.Validate long = some Error.ErrVarintTooBig ∧
    ID.Validate (v1 ++ long) = some Error.ErrVarintTooBig ∧
    Cast cut = (Undef, some Error.ErrVarintBuffSmall) ∧
    Cast (v1 ++ cut) = (Undef, some Error.ErrVarintBuffSmall) ∧
    Cast (big ++ rest) = (Undef, some Error.ErrVarintTooBig) ∧
    Cast (v1 ++ (big ++ rest)) = (Undef, some Error.ErrVarintTooBig) ∧
    Cast long = (Undef, some Error.ErrVarintTooBig) ∧
    Cast (v1 ++ long) = (Undef, some Error.ErrVarintTooBig) ∧
    (∀ bs : List Byte, IsUnterminated bs →
      ID.Validate bs = some (if bs.length ≤ 10 then Error.ErrVarintBuffSmall
        else Error.ErrVarintTooBig) ∧
      ID.Validate (v1 ++ bs) = some (if bs.length ≤ 10 then Error.ErrVarintBuffSmall
        else Error.ErrVarintTooBig)) ∧
    Error.ErrVarintBuffSmall ≠ Error.ErrVarintTooBig ∧
    Error.ErrVarintBuffSmall.msg ≠ Error.ErrVarintTooBig.msg ∧
    (∀ data : List Byte, ¬ (ID.Validate data = some Error.ErrVarintBuffSmall ∧
      ID.Validate data = some Error.ErrVarintTooBig)) := by
  have a1 : validateIDData cut = some Error.ErrVarintBuffSmall :=
    validateIDData_version_fail cut _ (by rw [Uvarint_cutOff cut hc]; rfl)
  have a2 : validateIDData (v1 ++ cut) = some Error.ErrVarintBuffSmall :=
    validateIDData_variant_fail v1 cut _ h1 hv1 (by rw [Uvarint_cutOff cut hc]; rfl)
  have a3 : validateIDData (big ++ rest) = some Error.ErrVarintTooBig :=
    validateIDData_version_fail _ _ (uvError_neg _ (Uvarint_tooBig big rest hb))
  have a4 : validateIDData (v1 ++ (big ++ rest)) = some Error.ErrVarintTooBig :=
    validateIDData_variant_fail v1 _ _ h1 hv1 (uvError_neg _ (Uvarint_tooBig big rest hb))
  have a5 : validateIDData long = some Error.ErrVarintTooBig :=
    validateIDData_version_fail _ _ (uvError_neg _ (Uvarint_overlong long hl))
  have a6 : validateIDData (v1 ++ long) = some Error.ErrVarintTooBig :=
    validateIDData_variant_fail v1 _ _ h1 hv1 (uvError_neg _ (Uvarint_overlong long hl))
  refine ⟨a1, a2, a3, a4, a5, a6, ?_, ?_, ?_, ?_, ?_, ?_, ?_, by decide, by decide, ?_⟩
  · simp only [Cast, a1]
  · simp only [Cast, a2]
  · simp only [Cast, a3]
  · simp only [Cast, a4]
  · simp only [Cast, a5]
  · simp only [Cast, a6]
  · intro bs hbs
    obtain ⟨hcut, hlong⟩ := IsUnterminated.cutOff_or_overlong bs hbs
    by_cases hlen : bs.length ≤ 10
    · have hu : Uvarint bs = (0, 0) := Uvarint_cutOff bs (hcut hlen)
      simp only [hlen, if_true]
      exact ⟨validateIDData_version_fail bs _ (by rw [hu]; rfl),
        validateIDData_variant_fail v1 bs _ h1 hv1 (by rw [hu]; rfl)⟩
    · have hu := uvError_neg _ (Uvarint_overlong bs (hlong (by omega)))
      simp only [hlen, if_false]
      exact ⟨validateIDData_version_fail bs _ hu,
        validateIDData_variant_fail v1 bs _ h1 hv1 hu⟩
  · rintro data ⟨h, h'⟩
    rw [h] at h'
    exact absurd h' (by decide)

/-- C14, as amended, at the inputs the claim lists: the undefined identifier and the
single byte `[0x01]` are cut off; nine bytes `0xff` and a tenth byte `0x02` are too
big; eleven bytes `0x80` run to more than ten bytes. -/
theorem Validate_varint_errors_witness :
    (IsCutOffVarint [] ∧
      IsTooBigVarint [0xff, 0xff, 0xff, 0xff, 0xff, 0xff, 0xff, 0xff, 0xff, 0x02] ∧
      IsOverlongVarint [0x80, 0x80, 0x80, 0x80, 0x80, 0x80, 0x80, 0x80, 0x80, 0x80, 0x80] ∧
      IsUvarint [0x01] ∧ varintValue [0x01] = 1) ∧
    ID.Validate [] = some Error.ErrVarintBuffSmall ∧
    ID.Validate ([0x01] ++ []) = some Error.ErrVarintBuffSmall ∧
    ID.Validate ([0xff, 0xff, 0xff, 0xff, 0xff, 0xff, 0xff, 0xff, 0xff, 0x02] ++ [0x55, 0x07])
      = some Error.ErrVarintTooBig ∧
    ID.Validate [0x80, 0x80, 0x80, 0x80, 0x80, 0x80, 0x80, 0x80, 0x80, 0x80, 0x80]
      = some Error.ErrVarintTooBig :=
  have hc : IsCutOffVarint [] := ⟨by simp, by decide⟩
  have hb : IsTooBigVarint [0xff, 0xff, 0xff, 0xff, 0xff, 0xff, 0xff, 0xff, 0xff, 0x02] :=
    ⟨[0xff, 0xff, 0xff, 0xff, 0xff, 0xff, 0xff, 0xff, 0xff], 0x02, rfl,
      by intro b hb; simp only [List.mem_cons, List.mem_singleton, List.not_mem_nil,
        or_false, or_self] at hb; subst hb; decide,
      by decide, Or.inl ⟨rfl, by decide⟩⟩
  have hl : IsOverlongVarint
      [0x80, 0x80, 0x80, 0x80, 0x80, 0x80, 0x80, 0x80, 0x80, 0x80, 0x80] :=
    ⟨[0x80, 0x80, 0x80, 0x80, 0x80, 0x80, 0x80, 0x80, 0x80, 0x80], 0x80, [], rfl,
      by intro b hb; simp only [List.mem_cons, List.mem_singleton, List.not_mem_nil,
        or_false, or_self] at hb; subst hb; decide,
      rfl⟩
  have h1 : IsUvarint [0x01] := ⟨[], 1, rfl, by simp, by decide, by decide, by decide⟩
  have h := Validate_varint_errors [] _ _ [0x01] [0x55, 0x07] hc hb hl h1 (by decide)
  ⟨⟨hc, hb, hl, h1, by decide⟩, h.1, h.2.1, h.2.2.1, h.2.2.2.2.1⟩

/-- C14 fails as stated: the eleven bytes `0x80` all carry the continuation bit, so
the version varint is cut off by the end of the bytes, yet `Validate` and `Cast`
return `ErrVarintTooBig` and not `ErrVarintBuffSmall`; the same holds for the variant
varint after the version byte `0x01`. -/
theorem Validate_varint_errors_counterexample :
    IsUnterminated [0x80, 0x80, 0x80, 0x80, 0x80, 0x80, 0x80, 0x80, 0x80, 0x80, 0x80] ∧
    ID.Validate [0x80, 0x80, 0x80, 0x80, 0x80, 0x80, 0x80, 0x80, 0x80, 0x80, 0x80]
      = some Error.ErrVarintTooBig ∧
    ID.Validate [0x80, 0x80, 0x80, 0x80, 0x80, 0x80, 0x80, 0x80, 0x80, 0x80, 0x80]
      ≠ some Error.ErrVarintBuffSmall ∧
    Cast [0x80, 0x80, 0x80, 0x80, 0x80, 0x80, 0x80, 0x80, 0x80, 0x80, 0x80]
      = (Undef, some Error.ErrVarintTooBig) ∧
    ID.Validate [0x01, 0x80, 0x80, 0x80, 0x80, 0x80, 0x80, 0x80, 0x80, 0x80, 0x80, 0x80]
      = some Error.ErrVarintTooBig := by
  refine ⟨?_, by decide, by decide, by decide, by decide⟩
  intro b hb
  simp only [List.mem_cons, List.mem_singleton, List.not_mem_nil, or_false, or_self] at hb
  subst hb
  decide

/-- C15, as amended: for every identifier whose bytes fail `Validate`, `String()`,
`StringOfBase()`, `MarshalText()` and `DID()` panic; `Version()` panics exactly when
the leading version varint cannot be read and otherwise returns the decoded version,
also when it is not 1; `Variant()` panics only when the leading varint is too big and
otherwise returns a value. -/
theorem accessors_on_invalid (mb : OtherBases) (id : ID) (h : ID.Validate id ≠ none) :
    ID.String mb id = none ∧
    (∀ base, ID.StringOfBase mb id base = none) ∧
    ID.MarshalText mb id = none ∧
    ID.DID mb id = none ∧
    (ID.Version id = none ↔ (Uvarint (ID.Bytes id)).2 ≤ 0) ∧
    (0 < (Uvarint (ID.Bytes id)).2 → ID.Version id = some (Uvarint (ID.Bytes id)).1) ∧
    (ID.Variant id = none ↔ (uvarint id).2 < 0) := by
  have hm := MustValidate_invalid id h
  have hs : ID.String mb id = none := by simp only [ID.String, hm]
  refine ⟨hs, ?_, ?_, ?_, (Version_eq id).1, (Version_eq id).2, Variant_eq_none_iff id⟩
  · intro base
    simp only [ID.StringOfBase, hm]
  · simp only [ID.MarshalText, hm]
  · simp only [ID.DID, hs]

/-- C15, as amended, at the identifier `[2, 0x55, 7]`, whose version is not 1. -/
theorem accessors_on_invalid_witness :
    ID.Validate [2, 0x55, 7] ≠ none ∧
    ID.String noOtherBases [2, 0x55, 7] = none ∧
    ID.Version [2, 0x55, 7] = some 2 :=
  have h := accessors_on_invalid noOtherBases [2, 0x55, 7] (by decide)
  ⟨by decide, h.1, h.2.2.2.2.2.1 (by decide)⟩

/-- C15 fails as stated: the identifier `[2, 0x55, 7]` fails `Validate` (its version
is 2), yet `Version()` returns 2 and `Variant()` returns 0x55 without panic; the
undefined identifier fails `Validate`, yet `Variant()` returns 0. -/
theorem accessors_on_invalid_counterexample :
    ID.Validate [2, 0x55, 7] = some (Error.unexpectedVersion 2) ∧
    ID.Version [2, 0x55, 7] = some 2 ∧
    ID.Variant [2, 0x55, 7] = some 0x55 ∧
    ID.Validate Undef = some Error.ErrVarintBuffSmall ∧
    ID.Variant Undef = some 0 := by
  decide

/-- C16: for every Manager and identifier, after a successful `DeleteDB(ctx, id)` a
`GetDB(ctx, id)` fails with the not-found error, on the same Manager, on the Manager
after `Close`, and on a new Manager constructed over the same Store; it is the error
`GetDB` returns on a Manager over a Store in which the identifier was never created. -/
theorem GetDB_after_DeleteDB (m : Manager) (id : ID)
    (h : (DeleteDB m id).2 = none) :
    (GetDB (DeleteDB m id).1 id).2 = .error ManagerError.ErrThreadNotFound ∧
    (GetDB (Manager.Close (DeleteDB m id).1) id).2 = .error ManagerError.ErrThreadNotFound ∧
    (GetDB (NewManager (DeleteDB m id).1.store) id).2
      = .error ManagerError.ErrThreadNotFound ∧
    (∀ m0 : Manager, findDB id m0.registry = none → findDB id m0.store = none →
      (GetDB m0 id).2 = .error ManagerError.ErrThreadNotFound) := by
  have hd : DeleteDB m id = (⟨removeDB id m.registry, removeDB id m.store⟩, none) := by
    simp only [DeleteDB] at h ⊢
    split
    · rename_i h1 h2
      simp [h1, h2] at h
    · rfl
  rw [hd]
  refine ⟨?_, ?_, ?_, ?_⟩
  · rw [GetDB_not_found _ id (findDB_removeDB id _) (findDB_removeDB id _)]
  · rw [GetDB_not_found (Manager.Close ⟨removeDB id m.registry, removeDB id m.store⟩) id
      rfl (findDB_removeDB id _)]
  · rw [GetDB_not_found (NewManager (removeDB id m.store)) id rfl (findDB_removeDB id _)]
  · intro m0 hr hs
    rw [GetDB_not_found m0 id hr hs]

/-- C16 at a Manager on which `NewDB` has created the Database of `[1, 0x55, 7]`. -/
theorem GetDB_after_DeleteDB_witness :
    (DeleteDB (NewDB (NewManager []) [1, 0x55, 7] none).1 [1, 0x55, 7]).2 = none ∧
    (GetDB (NewDB (NewManager []) [1, 0x55, 7] none).1 [1, 0x55, 7]).2
      = .ok ⟨[1, 0x55, 7], "", []⟩ ∧
    (GetDB (DeleteDB (NewDB (NewManager []) [1, 0x55, 7] none).1 [1, 0x55, 7]).1
      [1, 0x55, 7]).2 = .error ManagerError.ErrThreadNotFound :=
  ⟨by decide, rfl,
    (GetDB_after_DeleteDB (NewDB (NewManager []) [1, 0x55, 7] none).1 [1, 0x55, 7]
      (by decide)).1⟩

/-- C17: for every database name that contains a whitespace character (any character
with the Unicode property White_Space), `NewDB(ctx, id, WithNewManagedName(name))`
fails with an error, returns no Database and leaves the Manager as it was; on a
Manager that does not know the identifier the error is the invalid-name error. -/
theorem NewDB_bad_name (m : Manager) (id : ID) (name : String)
    (h : name.toList.any isSpace = true) :
    (∃ e, (NewDB m id (some name)).2 = .error e) ∧
    (NewDB m id (some name)).1 = m ∧
    (findDB id m.registry = none → findDB id m.store = none →
      (NewDB m id (some name)).2 = .error ManagerError.invalidName) := by
  have hv : validName name = false := by simp only [validName, h, Bool.not_true]
  refine ⟨?_, ?_, ?_⟩
  · simp only [NewDB]
    split
    · simp only [hv]
      exact ⟨_, rfl⟩
    · exact ⟨_, rfl⟩
  · simp only [NewDB]
    split
    · simp only [hv]
      rfl
    · rfl
  · intro hr hs
    simp only [NewDB, hr, hs, hv]
    rfl

/-- C17 at the name "my db" of the test and at names with a form feed, a vertical
tab and a no-break space, next to the name "my-db", which is accepted and reported
by the Database. -/
theorem NewDB_bad_name_witness :
    "my db".toList.any isSpace = true ∧
    (NewDB (NewManager []) [1, 0x55, 7] (some "my db")).2
      = .error ManagerError.invalidName ∧
    (NewDB (NewManager []) [1, 0x55, 7] (some "my\x0cdb")).2
      = .error ManagerError.invalidName ∧
    (NewDB (NewManager []) [1, 0x55, 7] (some "my\x0bdb")).2
      = .error ManagerError.invalidName ∧
    (NewDB (NewManager []) [1, 0x55, 7] (some "my\u00a0db")).2
      = .error ManagerError.invalidName ∧
    (NewDB (NewManager []) [1, 0x55, 7] (some "my-db")).2
      = .ok ⟨[1, 0x55, 7], "my-db", []⟩ :=
  ⟨by decide,
    (NewDB_bad_name (NewManager []) [1, 0x55, 7] "my db" (by decide)).2.2 rfl rfl,
    (NewDB_bad_name (NewManager []) [1, 0x55, 7] "my\x0cdb" (by decide)).2.2 rfl rfl,
    (NewDB_bad_name (NewManager []) [1, 0x55, 7] "my\x0bdb" (by decide)).2.2 rfl rfl,
    (NewDB_bad_name (NewManager []) [1, 0x55, 7] "my\u00a0db" (by decide)).2.2 rfl rfl,
    rfl⟩

/-- C18: for every identifier that passes `Validate`, `String()`, `MarshalText()` and
`DID()` return without panic, `String()` is the multibase Base32 encoding of
`Bytes()`, the tag `b` followed by the Base32 text (which is also the text
`MarshalText()` returns, with a nil error), and `DID()` is the text "did:thread:"
followed by `String()`. -/
theorem String_MarshalText_DID (mb : OtherBases) (id : ID) (h : ID.Validate id = none) :
    ∃ s, mbaseEncode mb Base32 (ID.Bytes id) = .ok s ∧
      s = (0x62 : Byte) :: base32Encode (ID.Bytes id) ∧
      goString "b" = [(0x62 : Byte)] ∧
      ID.String mb id = some s ∧
      ID.MarshalText mb id = some (s, none) ∧
      ID.DID mb id = some (goString "did:thread:" ++ s) ∧
      ID.DID mb id
        = some ([100, 105, 100, 58, 116, 104, 114, 101, 97, 100, 58] ++ s) := by
  have hs := String_of_valid mb id h
  refine ⟨_, ?_, rfl, rfl, hs, ?_, ?_, ?_⟩
  · simp only [mbaseEncode, if_true, ID.Bytes]
    rfl
  · simp only [ID.MarshalText, ID.MustValidate, h, hs, ID.Bytes]
    rfl
  · simp only [ID.DID, hs, ID.Bytes]
    rfl
  · simp only [ID.DID, hs, ID.Bytes]
    rfl

/-- C18 at the identifier with bytes `[1, 0x55, 7]`, whose text is "bafkqo" and
whose decentralized identifier is "did:thread:bafkqo". -/
theorem String_MarshalText_DID_witness :
    ID.Validate [1, 0x55, 7] = none ∧
    ID.String noOtherBases [1, 0x55, 7] = some (goString "bafkqo") ∧
    ID.MarshalText noOtherBases [1, 0x55, 7] = some (goString "bafkqo", none) ∧
    ID.DID noOtherBases [1, 0x55, 7] = some (goString "did:thread:bafkqo") ∧
    (∃ s, mbaseEncode noOtherBases Base32 (ID.Bytes [1, 0x55, 7]) = .ok s ∧
      s = (0x62 : Byte) :: base32Encode (ID.Bytes [1, 0x55, 7]) ∧
      goString "b" = [(0x62 : Byte)] ∧
      ID.String noOtherBases [1, 0x55, 7] = some s ∧
      ID.MarshalText noOtherBases [1, 0x55, 7] = some (s, none) ∧
      ID.DID noOtherBases [1, 0x55, 7] = some (goString "did:thread:" ++ s) ∧
      ID.DID noOtherBases [1, 0x55, 7]
        = some ([100, 105, 100, 58, 116, 104, 114, 101, 97, 100, 58] ++ s)) :=
  ⟨by decide, by decide, by decide, by decide,
    String_MarshalText_DID noOtherBases [1, 0x55, 7] (by decide)⟩

/-- C19: for every payload `p` and variant in {RandomVariant, PubKeyVariant},
`newID(Version1, variant, p)` passes `Validate` if and only if `p` is non-empty; every
`NewRandomIDV1` identifier passes `Validate`, and `NewPubKeyIDV1(k)` passes `Validate`
exactly when `k.Hash()` returns at least one byte. -/
theorem newID_valid_iff (variant : Nat) (p : List Byte) (r : Nat → Byte)
    (hvar : variant = RandomVariant ∨ variant = PubKeyVariant) :
    (∃ id, newID Version1 variant p = some id ∧ (ID.Validate id = none ↔ p ≠ [])) ∧
    (∃ id, NewRandomIDV1 (some r) = some id ∧ ID.Validate id = none) ∧
    (∃ id, NewPubKeyIDV1 (.ok p) = some id ∧ (ID.Validate id = none ↔ p ≠ [])) := by
  refine ⟨?_, ⟨_, NewRandomIDV1_eq r, NewRandomIDV1_valid r⟩,
    ⟨_, NewPubKeyIDV1_eq p, validateIDData_newID 0x70 (by decide) (Or.inr rfl) p⟩⟩
  rcases hvar with rfl | rfl
  · refine ⟨(1 : Byte) :: 0x55 :: p, ?_, validateIDData_newID 0x55 (by decide) (Or.inl rfl) p⟩
    rw [newID_eq _ _ _ (by decide) (by decide), uvarintBytes_Version1,
      uvarintBytes_RandomVariant]
    rfl
  · refine ⟨(1 : Byte) :: 0x70 :: p, ?_, validateIDData_newID 0x70 (by decide) (Or.inr rfl) p⟩
    rw [newID_eq _ _ _ (by decide) (by decide), uvarintBytes_Version1,
      uvarintBytes_PubKeyVariant]
    rfl

/-- C19 at the pubkey variant and the empty payload, where the constructor returns
the invalid identifier `[0x01, 0x70]`. -/
theorem newID_valid_iff_witness :
    (PubKeyVariant = RandomVariant ∨ PubKeyVariant = PubKeyVariant) ∧
    (∃ id, newID Version1 PubKeyVariant [] = some id ∧
      (ID.Validate id = none ↔ ([] : List Byte) ≠ [])) ∧
    ID.Validate [0x01, 0x70] = some Error.noPayload :=
  ⟨Or.inr rfl, (newID_valid_iff PubKeyVariant [] (fun _ => 0) (Or.inr rfl)).1, by decide⟩

/-- C20: `UnmarshalBinary(data)` returns the error of `Cast(data)`; when that is nil
the receiver becomes the identifier `Cast` returns, otherwise the receiver keeps its
value; `UnmarshalText` does the same with respect to `Decode`. -/
theorem Unmarshal_atomic (mb : OtherBases) (i : ID) (data text : List Byte) :
    (ID.UnmarshalBinary i data).2 = (Cast data).2 ∧
    ((Cast data).2 = none → (ID.UnmarshalBinary i data).1 = (Cast data).1) ∧
    ((Cast data).2 ≠ none → (ID.UnmarshalBinary i data).1 = i) ∧
    (ID.UnmarshalText mb i text).2 = (Decode mb text).2 ∧
    ((Decode mb text).2 = none → (ID.UnmarshalText mb i text).1 = (Decode mb text).1) ∧
    ((Decode mb text).2 ≠ none → (ID.UnmarshalText mb i text).1 = i) := by
  refine ⟨?_, ?_, ?_, ?_, ?_, ?_⟩
  · simp only [ID.UnmarshalBinary]; split <;> simp_all
  · simp only [ID.UnmarshalBinary]; split <;> simp_all
  · simp only [ID.UnmarshalBinary]; split <;> simp_all
  · simp only [ID.UnmarshalText]; split <;> simp_all
  · simp only [ID.UnmarshalText]; split <;> simp_all
  · simp only [ID.UnmarshalText]; split <;> simp_all

end Thread
